import Mathlib

/-!
Verification development for the `vers` versioning library (Go).

The definitions below are a shallow embedding of the version resolution and
multi-ecosystem formatting engine of the repository: `version.go`
(`Calculate`, `CalculateFromString`, `buildLanguageVersions`,
`buildPreVersionStrings`, `convertPatchToPython`, `getPythonPreVersion`,
`getPythonPrePrefix`) and `git.go` (`getVersionComponents`,
`determineBaseVersion`, `isExactTag`, `mostRecentTag`,
`stripModuleTagPrefixes`), over the data model of `types.go`
(`LanguageVersions`, `Options`, `VersionComponents`) and the parts of the
`blang/semver` library the code relies on (`semver.Parse`,
`semver.PRVersion`).

Strings are modelled as Lean `String` (Go strings here are ASCII), with the
character-level scanners working on `List Char`.  Machine integers
(`uint64` in `blang/semver`, `int64` Unix timestamps) are modelled as
`Nat` / `Int` with the explicit range check of `strconv.ParseUint` where the
Go code can overflow.  Fallible Go functions returning `(T, error)` are
modelled as `Except String T`; functions whose error result is always `nil`
in the source (`getPythonPreVersion`, `convertPatchToPython`) are modelled
as total functions.

Repository access (go-git) is external to the engine; it is modelled by the
`Repo` record of query results (commit table, tag list, annotated-tag
dereference, revision resolution, worktree dirtiness), exactly the data the
engine reads through the go-git API.  Regular-expression compilation
(`regexp.Compile`) is likewise external and is passed to `Calculate` as a
`compileRegex` parameter.  The three concrete regular expressions used by
`getPythonPreVersion` and `convertPatchToPython` are embedded directly as
character-level scanners with Go (RE2/leftmost-first) matching semantics.
-/

deriving instance DecidableEq for Except

namespace Vers

/-! ### Character classes of the Go regular expressions (ASCII, as in Go `regexp`) -/

/-- Go regexp `\w` = `[0-9A-Za-z_]`. -/
def isWordChar (c : Char) : Bool := c.isAlphanum || c = '_'

/-- Lowercase hexadecimal digit, the class `[0-9a-f]` of the build-hash regex. -/
def isLowerHex (c : Char) : Bool := c.isDigit || ('a' ≤ c && c ≤ 'f')

/-- Character list of a string. -/
def chars (s : String) : List Char := s.data

/-- String from a character list. -/
def ofChars (l : List Char) : String := ⟨l⟩

theorem data_ofChars (l : List Char) : (ofChars l).data = l := rfl

theorem data_append (a b : String) : (a ++ b).data = a.data ++ b.data := rfl

theorem ofChars_data (s : String) : ofChars s.data = s := rfl

theorem ofChars_inj {a b : List Char} (h : ofChars a = ofChars b) : a = b :=
  congrArg String.data h

/-! ### Decimal printing (Go `fmt %d` / `strconv.FormatInt`, base 10) -/

/-- Decimal digit character for `d < 10`. -/
def digitChar (d : Nat) : Char := Char.ofNat (48 + d)

/-- Fueled canonical decimal digit list of a natural number (most significant
first).  The fuel argument makes the recursion structural; `natStr` supplies
fuel `n + 1`, which is sufficient (`natDigitsAux_spec`). -/
def natDigitsAux : Nat → Nat → List Char
  | 0, _ => []
  | fuel + 1, n =>
    if n < 10 then [digitChar n]
    else natDigitsAux fuel (n / 10) ++ [digitChar (n % 10)]

/-- Canonical decimal rendering of a `Nat`, as printed by Go's `%d`. -/
def natStr (n : Nat) : String := ofChars (natDigitsAux (n + 1) n)

/-- Canonical decimal rendering of an `Int`, as printed by Go's `%d` /
`strconv.FormatInt(_, 10)`. -/
def intStr (i : Int) : String :=
  if i < 0 then "-" ++ natStr i.natAbs else natStr i.natAbs

/-- Numeric value of a decimal digit list (the accumulator loop of
`strconv.ParseUint` on base 10). -/
def digitsVal (l : List Char) : Nat :=
  l.foldl (fun a c => a * 10 + (c.toNat - 48)) 0

theorem digitsVal_append (a b : List Char) :
    digitsVal (a ++ b) = b.foldl (fun a c => a * 10 + (c.toNat - 48)) (digitsVal a) := by
  simp [digitsVal, List.foldl_append]

theorem digitChar_isDigit {d : Nat} (h : d < 10) : (digitChar d).isDigit = true := by
  interval_cases d <;> decide

theorem digitChar_toNat {d : Nat} (h : d < 10) : (digitChar d).toNat = 48 + d := by
  interval_cases d <;> decide

/-- Core specification of the fueled digit printer: with sufficient fuel the
output is nonempty, consists of digit characters, round-trips through
`digitsVal`, and starts with `'0'` only for `n = 0`. -/
theorem natDigitsAux_spec :
    ∀ fuel n, n < fuel →
      natDigitsAux fuel n ≠ [] ∧
      (∀ c ∈ natDigitsAux fuel n, c.isDigit = true) ∧
      digitsVal (natDigitsAux fuel n) = n ∧
      (∀ t, natDigitsAux fuel n = '0' :: t → n = 0) := by
  intro fuel
  induction fuel with
  | zero => intro n hn; omega
  | succ f ih =>
    intro n hn
    by_cases h10 : n < 10
    · refine ⟨by simp [natDigitsAux, h10], ?_, ?_, ?_⟩
      · intro c hc
        simp [natDigitsAux, h10] at hc
        subst hc; exact digitChar_isDigit h10
      · simp [natDigitsAux, h10, digitsVal, digitChar_toNat h10]
      · intro t ht
        simp [natDigitsAux, h10] at ht
        have h0 : (digitChar n).toNat = 48 := by rw [ht.1]; rfl
        rw [digitChar_toNat h10] at h0
        omega
    · have hq : n / 10 < f := by omega
      obtain ⟨hne, hdig, hval, hzero⟩ := ih (n / 10) hq
      have hlt : n % 10 < 10 := Nat.mod_lt _ (by omega)
      refine ⟨by simp [natDigitsAux, h10], ?_, ?_, ?_⟩
      · intro c hc
        simp [natDigitsAux, h10] at hc
        rcases hc with hc | hc
        · exact hdig c hc
        · subst hc; exact digitChar_isDigit hlt
      · simp only [natDigitsAux, h10, if_false, digitsVal_append, hval]
        simp [digitChar_toNat hlt]
        omega
      · intro t ht
        simp only [natDigitsAux, h10, if_false] at ht
        cases hrec : natDigitsAux f (n / 10) with
        | nil => exact absurd hrec hne
        | cons a as =>
          rw [hrec] at ht
          simp at ht
          have := hzero as (by rw [hrec, ht.1])
          omega

theorem natStr_ne_empty (n : Nat) : (natStr n).data ≠ [] := by
  have := (natDigitsAux_spec (n + 1) n (by omega)).1
  simpa [natStr, ofChars] using this

theorem natStr_all_digits (n : Nat) : ∀ c ∈ (natStr n).data, c.isDigit = true := by
  have := (natDigitsAux_spec (n + 1) n (by omega)).2.1
  simpa [natStr, ofChars] using this

theorem natStr_digitsVal (n : Nat) : digitsVal (natStr n).data = n := by
  have := (natDigitsAux_spec (n + 1) n (by omega)).2.2.1
  simpa [natStr, ofChars] using this

theorem natStr_no_leading_zero (n : Nat) :
    ∀ t, (natStr n).data = '0' :: t → n = 0 := by
  have := (natDigitsAux_spec (n + 1) n (by omega)).2.2.2
  simpa [natStr, ofChars] using this

/-- A decimal digit is not any of the structural characters used by the
version grammar, and is a word character. -/
theorem digit_char_facts {c : Char} (h : c.isDigit = true) :
    c ≠ '.' ∧ c ≠ '-' ∧ c ≠ '+' ∧ c ≠ '/' ∧ c ≠ 'y' ∧ c ≠ '\n' ∧ isWordChar c = true := by
  refine ⟨?_, ?_, ?_, ?_, ?_, ?_, ?_⟩
  all_goals first
  | (rintro rfl; exact absurd h (by decide))
  | (simp [isWordChar, Char.isAlphanum, h])

/-! ### String scanners (Go `strings` package operations used by the engine) -/

/-- `strings.TrimPrefix`: drop `pre` when it is a prefix, otherwise unchanged. -/
def trimPre (pre s : List Char) : List Char :=
  if pre.isPrefixOf s then s.drop pre.length else s

/-- Split a character list at the first occurrence of `sep`: returns the part
before it and, when found, the remainder after it (Go `strings.IndexRune`
followed by slicing). -/
def breakOnChar (sep : Char) : List Char → List Char × Option (List Char)
  | [] => ([], none)
  | c :: r =>
    if c = sep then ([], some r)
    else
      let (p, q) := breakOnChar sep r
      (c :: p, q)

/-- `strings.SplitN(s, sep, n)` for `n ≥ 1`: at most `n` parts, the last part
keeps any further separators. -/
def splitNAux (sep : Char) : Nat → List Char → List (List Char)
  | 0, _ => []
  | 1, s => [s]
  | n + 2, s =>
    match breakOnChar sep s with
    | (p, none) => [p]
    | (p, some rest) => p :: splitNAux sep (n + 1) rest

/-- Fueled unlimited split (`strings.Split`); `splitAll` supplies sufficient
fuel (each recursive step consumes at least the separator character). -/
def splitAllAux (sep : Char) : Nat → List Char → List (List Char)
  | 0, s => [s]
  | fuel + 1, s =>
    match breakOnChar sep s with
    | (p, none) => [p]
    | (p, some rest) => p :: splitAllAux sep fuel rest

/-- `strings.Split(s, sep)` for a single-character separator. -/
def splitAll (sep : Char) (s : List Char) : List (List Char) :=
  splitAllAux sep (s.length + 1) s

/-- `strings.Replace(s, old, "", 1)` for nonempty `old`: remove the first
occurrence of `pat`, if any. -/
def replaceFirst : List Char → List Char → List Char
  | [], _ => []
  | c :: rest, pat =>
    if pat.isPrefixOf (c :: rest) then (c :: rest).drop pat.length
    else c :: replaceFirst rest pat

/-- `strings.Contains(s, sub)`: `sub` occurs somewhere in `s`. -/
def containsSub : List Char → List Char → Bool
  | [], sub => sub.isPrefixOf []
  | c :: rest, sub => sub.isPrefixOf (c :: rest) || containsSub rest sub

/-- The `(\W|$)` tail of the ordinal regex and the `\b` word boundary of the
hash regex: end of input, or a non-word character next. -/
def boundaryAfter : List Char → Bool
  | [] => true
  | c :: _ => !isWordChar c

/-- Fueled scanner for all matches, in order and non-overlapping, of the Go
regex `\+[0-9a-f]{8}\b` — a `+` followed by exactly eight lowercase hex
digits at a word boundary — limited to at most `lim` matches.  Each step
consumes at least one character, so fuel `l.length + 1` (supplied by
`findHashes`) is sufficient (`findHashesFuel_congr`). -/
def findHashesFuel : Nat → List Char → Nat → List (List Char)
  | 0, _, _ => []
  | _ + 1, [], _ => []
  | fuel + 1, c :: rest, lim =>
    if lim = 0 then []
    else if c = '+' then
      match rest with
      | r1 :: r2 :: r3 :: r4 :: r5 :: r6 :: r7 :: r8 :: rest2 =>
        if ([r1, r2, r3, r4, r5, r6, r7, r8].all isLowerHex && boundaryAfter rest2) then
          ('+' :: r1 :: r2 :: r3 :: r4 :: r5 :: r6 :: r7 :: [r8]) ::
            findHashesFuel fuel rest2 (lim - 1)
        else findHashesFuel fuel (r1 :: r2 :: r3 :: r4 :: r5 :: r6 :: r7 :: r8 :: rest2) lim
      | short => findHashesFuel fuel short lim
    else findHashesFuel fuel rest lim

/-- `regexp.FindAllString` for the build-hash regex with match limit `lim`
(`getPythonPreVersion` uses `lim = 5`). -/
def findHashes (l : List Char) (lim : Nat) : List (List Char) :=
  findHashesFuel (l.length + 1) l lim

/-- The fueled hash scanner is fuel-irrelevant once the fuel exceeds the
input length. -/
theorem findHashesFuel_congr :
    ∀ fuel fuel' l lim, l.length < fuel → l.length < fuel' →
      findHashesFuel fuel l lim = findHashesFuel fuel' l lim := by
  intro fuel
  induction fuel with
  | zero => intro fuel' l lim h; omega
  | succ f ih =>
    intro fuel' l lim h h'
    match fuel', l with
    | 0, l => omega
    | f' + 1, [] => rfl
    | f' + 1, c :: rest =>
      by_cases hlim : lim = 0
      · simp [findHashesFuel, hlim]
      · by_cases hc : c = '+'
        · rcases rest with _ | ⟨r1, _ | ⟨r2, _ | ⟨r3, _ | ⟨r4, _ | ⟨r5, _ | ⟨r6, _ |
            ⟨r7, _ | ⟨r8, rest2⟩⟩⟩⟩⟩⟩⟩⟩ <;>
            simp only [findHashesFuel, hlim, hc, if_false, if_true, List.length_cons,
              List.length_nil] at h h' ⊢
          · exact ih f' _ lim (by simp; omega) (by simp; omega)
          · exact ih f' _ lim (by simp; omega) (by simp; omega)
          · exact ih f' _ lim (by simp; omega) (by simp; omega)
          · exact ih f' _ lim (by simp; omega) (by simp; omega)
          · exact ih f' _ lim (by simp; omega) (by simp; omega)
          · exact ih f' _ lim (by simp; omega) (by simp; omega)
          · exact ih f' _ lim (by simp; omega) (by simp; omega)
          · exact ih f' _ lim (by simp; omega) (by simp; omega)
          · by_cases hm : ([r1, r2, r3, r4, r5, r6, r7, r8].all isLowerHex &&
                boundaryAfter rest2) = true
            · simp only [hm, if_true]
              rw [ih f' rest2 (lim - 1) (by omega) (by omega)]
            · simp only [hm, if_false]
              exact ih f' _ lim (by simp; omega) (by simp; omega)
        · simp only [findHashesFuel, hlim, hc, if_false, List.length_cons] at h h' ⊢
          exact ih f' rest lim (by omega) (by omega)

/-- First (leftmost) match of the Go regex `\W(\d+)(\W|$)`, returning the
digits captured by group 1 (`regexp.FindStringSubmatch` in
`getPythonPreVersion`).  The digit run is maximal: with a greedy `\d+`, a
shorter run would be followed by a digit, which satisfies neither `\W` nor
`$`, so the engine's backtracking never yields a shorter capture. -/
def findNumAux : List Char → Option (List Char)
  | [] => none
  | c :: rest =>
    if !isWordChar c then
      let ds := rest.takeWhile Char.isDigit
      if ds ≠ [] && boundaryAfter (rest.dropWhile Char.isDigit) then some ds
      else findNumAux rest
    else findNumAux rest

/-! ### Data model (`types.go`, `blang/semver`) -/

/-- `semver.PRVersion`: one dot-separated prerelease identifier.  A numeric
identifier has `isNum = true` and its value in `versionNum`; an alphanumeric
identifier has the text in `versionStr` (and `versionNum = 0`). -/
structure PRVersion where
  versionStr : String
  versionNum : Nat
  isNum : Bool
deriving DecidableEq, Repr

/-- `semver.Version`. -/
structure SemVer where
  major : Nat
  minor : Nat
  patch : Nat
  pre : List PRVersion
  build : List String
deriving DecidableEq, Repr

/-- `LanguageVersions` (types.go): the five ecosystem output strings. -/
structure LanguageVersions where
  semVer : String
  python : String
  javaScript : String
  dotNet : String
  go : String
deriving DecidableEq, Repr

/-- `VersionComponents` (types.go).  `timestamp` is the committer time as UTC
Unix seconds (the only use the engine makes of `time.Time`). -/
structure VersionComponents where
  semver : SemVer
  dirty : Bool
  shortHash : String
  timestamp : Int
  isExact : Bool
deriving DecidableEq, Repr

/-! ### `getPythonPrePrefix`, `getPythonPreVersion`, `convertPatchToPython`
(version.go).  In the source these return an `error` that is always `nil`,
so they are modelled as total functions. -/

/-- `getPythonPrePrefix` (version.go): map the leading generic prerelease
token to its PEP440 token and return the rest of the string. -/
def getPythonPrePrefix (preVersion : String) : String × String :=
  if (chars "-dev").isPrefixOf preVersion.data then ("dev", ofChars (preVersion.data.drop 4))
  else if (chars "-alpha").isPrefixOf preVersion.data then ("a", ofChars (preVersion.data.drop 6))
  else if (chars "-beta").isPrefixOf preVersion.data then ("b", ofChars (preVersion.data.drop 5))
  else if (chars "-rc").isPrefixOf preVersion.data then ("rc", ofChars (preVersion.data.drop 3))
  else ("", preVersion)

/-- `getPythonPreVersion` (version.go): PEP440 back-conversion of a formatted
prerelease tail — strip the kind token, strip one `dirty` marker, strip the
last of at most five 8-hex-digit build-hash tokens, then take the first
standalone decimal number as the ordinal (default `"0"`). -/
def getPythonPreVersion (preVersion : String) : String :=
  if preVersion = "" then ""
  else
    let pk := getPythonPrePrefix preVersion
    let isDirty := containsSub preVersion.data (chars "dirty")
    let remaining := if isDirty then replaceFirst pk.2.data (chars "dirty") else pk.2.data
    let hashMatches := findHashes remaining 5
    let remaining :=
      match hashMatches.getLast? with
      | some shortHash => replaceFirst remaining shortHash
      | none => remaining
    let pythonPreSuffix :=
      match findNumAux remaining with
      | some ds => ofChars ds
      | none => "0"
    let py := if pk.1 ≠ "" then pk.1 ++ pythonPreSuffix else ""
    if isDirty then py ++ "+dirty" else py

/-- `convertPatchToPython` (version.go): Go regex `^(\d+)(.*)$` — when the
patch text starts with digits and the rest contains no newline (`.` does not
match newline and `$` anchors at end of text), convert the tail with
`getPythonPreVersion`; otherwise return the text unchanged. -/
def convertPatchToPython (patch : String) : String :=
  match patch.data with
  | [] => patch
  | c :: _ =>
    if c.isDigit then
      let ds := patch.data.takeWhile Char.isDigit
      let rest := patch.data.dropWhile Char.isDigit
      if rest.contains '\n' then patch
      else ofChars ds ++ getPythonPreVersion (ofChars rest)
    else patch

/-- Go `%q` on a string (as used in error messages; exact for strings without
characters needing escapes, which is all this development evaluates). -/
def quoted (s : String) : String := "\"" ++ s ++ "\""

/-- `CalculateFromString` (version.go): parse a free-standing version string
into the five ecosystem strings.  Strips one leading `v`, requires exactly 3
dot-parts, converts the patch part for PEP440. -/
def CalculateFromString (version : String) : Except String LanguageVersions :=
  let normalised := trimPre (chars "v") version.data
  match splitNAux '.' 3 normalised with
  | [majorPart, minorPart, patchPart] =>
    let patch := ofChars patchPart
    let pythonPatch := convertPatchToPython patch
    let genericVersion := ofChars majorPart ++ "." ++ ofChars minorPart ++ "." ++ patch
    let pythonVersion := ofChars majorPart ++ "." ++ ofChars minorPart ++ "." ++ pythonPatch
    .ok
      { semVer := genericVersion
        python := pythonVersion
        javaScript := "v" ++ genericVersion
        dotNet := genericVersion
        go := "v" ++ genericVersion }
  | _ => .error ("version must have exactly 3 parts: " ++ quoted version)

/-! ### `semver.Parse` (blang/semver), as used by `getVersionComponents` -/

/-- Go `alphanum` class of blang/semver identifiers: letters, digits and `-`. -/
def semverAlphanum (c : Char) : Bool := c.isAlpha || c.isDigit || c = '-'

/-- blang/semver `hasLeadingZeroes`: more than one character and the first is
`'0'`. -/
def hasLeadingZeroes (s : List Char) : Bool :=
  s.length > 1 && s.headD 'x' == '0'

/-- `strconv.ParseUint(s, 10, 64)` on an all-digit string: fails on the empty
string and when the value exceeds `2^64 - 1`. -/
def parseUint64 (s : List Char) : Except String Nat :=
  if s = [] then .error "invalid syntax"
  else if digitsVal s < 18446744073709551616 then .ok (digitsVal s)
  else .error "value out of range"

/-- blang/semver `NewPRVersion`: one prerelease identifier, numeric when
all-digits (no leading zeroes), else alphanumeric. -/
def newPRVersion (s : List Char) : Except String PRVersion :=
  if s = [] then .error "Prerelease is empty"
  else if s.all Char.isDigit then
    if hasLeadingZeroes s then .error "Numeric PreRelease version must not contain leading zeroes"
    else (parseUint64 s).map (fun n => ⟨"", n, true⟩)
  else if s.all semverAlphanum then .ok ⟨ofChars s, 0, false⟩
  else .error "Invalid character(s) found in prerelease"

/-- One numeric component of the triple: digits only, no leading zeroes,
within `uint64`. -/
def parseVersionNum (s : List Char) (what : String) : Except String Nat :=
  if ¬ s.all Char.isDigit then .error ("Invalid character(s) found in " ++ what ++ " number")
  else if hasLeadingZeroes s then .error (what ++ " number must not contain leading zeroes")
  else parseUint64 s

/-- blang/semver `Parse`: `major.minor.patch` with optional `-prerelease`
(dot-separated identifiers) and `+build` metadata split off the third part
(build first, then prerelease, as in the source). -/
def parseSemver (s : String) : Except String SemVer :=
  if s.data = [] then .error "Version string empty"
  else
    match splitNAux '.' 3 s.data with
    | [p0, p1, rest] =>
      match parseVersionNum p0 "Major" with
      | .error e => .error e
      | .ok major =>
      match parseVersionNum p1 "Minor" with
      | .error e => .error e
      | .ok minor =>
        let buildSplit :=
          match breakOnChar '+' rest with
          | (before, none) => (before, ([] : List (List Char)))
          | (before, some after) => (before, splitAll '.' after)
        let preSplit :=
          match breakOnChar '-' buildSplit.1 with
          | (before, none) => (before, ([] : List (List Char)))
          | (before, some after) => (before, splitAll '.' after)
        match parseVersionNum preSplit.1 "Patch" with
        | .error e => .error e
        | .ok patch =>
        match preSplit.2.mapM newPRVersion with
        | .error e => .error e
        | .ok preList =>
          if buildSplit.2.all (fun b => b ≠ [] && b.all semverAlphanum) then
            .ok ⟨major, minor, patch, preList, buildSplit.2.map ofChars⟩
          else .error "Invalid character(s) found in build meta data"
    | _ => .error "No Major.Minor.Patch elements found"

/-! ### Repository model (the go-git queries the engine performs) -/

/-- One commit as the engine reads it: its hash (40-character hex string),
parent hashes in order, and the committer time as UTC Unix seconds. -/
structure Commit where
  hash : String
  parents : List String
  timestamp : Int
deriving DecidableEq, Repr

/-- One tag reference from `repo.Tags()`: full reference name
(`refs/tags/...`) and the hash the reference points at. -/
structure TagRef where
  name : String
  hash : String
deriving DecidableEq, Repr

/-- The read-only repository state the engine queries through go-git:
`CommitObject` (the commit table), `Tags` (the tag listing, which can fail),
`TagObject` (`annotated t = some target` when tag hash `t` is an annotated
tag object pointing at `target`, `none` for a lightweight tag —
`plumbing.ErrObjectNotFound`), `ResolveRevision`, and the result of the
dirty-state detector `workTreeIsDirty` (whose internal dual path is outside
the claims considered here). -/
structure Repo where
  commits : List Commit
  tags : Except String (List TagRef)
  annotated : String → Option String
  resolve : String → Option String
  dirty : Except String Bool

/-- `Options` (types.go). `repository` is an optional handle, mirroring the
nil-able Go pointer. -/
structure Options where
  repository : Option Repo
  commitish : String
  omitCommitHash : Bool
  releasePrefix : String
  isPreRelease : Bool
  tagFilter : Option (String → Bool)
  tagPattern : String

/-- `repo.CommitObject(hash)`. -/
def findCommit (repo : Repo) (h : String) : Option Commit :=
  repo.commits.find? (fun c => c.hash == h)

/-! ### Tag resolver (`git.go`) -/

/-- `ref.Name().Short()` for a tag reference: the name with the `refs/tags/`
prefix removed. -/
def shortName (ref : TagRef) : String :=
  ofChars (trimPre (chars "refs/tags/") ref.name.data)

/-- Text after the final `'/'` (`path.Split`); the whole string when there is
no slash.  The fuel (list length, supplied by `lastSlashComponent`) makes the
recursion structural; each step consumes at least the slash. -/
def lastSlashAux : Nat → List Char → List Char
  | 0, l => l
  | fuel + 1, l =>
    match breakOnChar '/' l with
    | (_, none) => l
    | (_, some after) => lastSlashAux fuel after

/-- Text after the final `'/'` (`path.Split`). -/
def lastSlashComponent (l : List Char) : List Char :=
  lastSlashAux l.length l

/-- `stripModuleTagPrefixes` (git.go): keep the text after the final `/`
(`path.Split`), then strip one leading `v`. -/
def stripModuleTagPrefixes (tag : String) : String :=
  ofChars (trimPre (chars "v") (lastSlashComponent tag.data))

/-- The body of the `isExactTag` tag loop (git.go): first tag in listing
order that is visible (no `beta`/`rc` substring in its full name unless
`isPrerelease`), passes the filter (applied to the short name), and whose
resolved target — the annotated-tag target, or the reference hash for a
lightweight tag — equals `hash`. -/
def findExactIn (repo : Repo) (tagList : List TagRef) (hash : String)
    (isPrerelease : Bool) (tagFilter : Option (String → Bool)) : Option TagRef :=
  match tagList with
  | [] => none
  | ref :: rest =>
    if (!isPrerelease && (containsSub ref.name.data (chars "beta") ||
        containsSub ref.name.data (chars "rc"))) then
      findExactIn repo rest hash isPrerelease tagFilter
    else if (match tagFilter with
             | some f => !f (ofChars (trimPre (chars "refs/tags/") ref.name.data))
             | none => false) then
      findExactIn repo rest hash isPrerelease tagFilter
    else
      match repo.annotated ref.hash with
      | some target =>
        if target = hash then some ref else findExactIn repo rest hash isPrerelease tagFilter
      | none =>
        if ref.hash = hash then some ref else findExactIn repo rest hash isPrerelease tagFilter

/-- `isExactTag` (git.go): list the tags (which can fail) and search them. -/
def isExactTagE (repo : Repo) (hash : String) (isPrerelease : Bool)
    (tagFilter : Option (String → Bool)) : Except String (Option TagRef) :=
  match repo.tags with
  | .error e => .error ("listing tags: " ++ e)
  | .ok tagList => .ok (findExactIn repo tagList hash isPrerelease tagFilter)

/-! ### Ancestry walk (`mostRecentTag`, go-git `NewCommitPreorderIter`).

The iterator visits commits depth-first from the start commit, pushing each
visited commit's parents (first parent first) and skipping commits already
seen, i.e. a preorder traversal with worklist `parents ++ rest` and a seen
set.  Termination: each visited commit is added to `seen`, so the number of
repository hashes not yet seen decreases; skip steps shorten the worklist. -/

/-- The set of commit hashes present in the repository. -/
def repoHashes (repo : Repo) : Finset String :=
  (repo.commits.map Commit.hash).toFinset

/-- Count of repository hashes not yet seen — the primary component of the
walk's termination measure. -/
def unseenCard (repo : Repo) (seen : List String) : Nat :=
  (repoHashes repo \ seen.toFinset).card

theorem findCommit_hash_mem {repo : Repo} {h : String} {c : Commit}
    (hf : findCommit repo h = some c) : h ∈ repoHashes repo := by
  have hmem := List.mem_of_find?_eq_some hf
  have hp := List.find?_some hf
  simp only [beq_iff_eq] at hp
  subst hp
  simp [repoHashes, List.mem_map]
  exact ⟨c, hmem, rfl⟩

theorem unseenCard_lt {repo : Repo} {h : String} {c : Commit} {seen : List String}
    (hf : findCommit repo h = some c) (hs : ¬ seen.contains h = true) :
    unseenCard repo (h :: seen) < unseenCard repo seen := by
  have hmem : h ∈ repoHashes repo := findCommit_hash_mem hf
  have hns : h ∉ seen.toFinset := by
    simp only [List.mem_toFinset]
    intro hcon
    exact hs (List.elem_eq_true_of_mem hcon)
  apply Finset.card_lt_card
  constructor
  · intro x hx
    simp only [List.toFinset_cons, Finset.mem_sdiff, Finset.mem_insert] at hx ⊢
    exact ⟨hx.1, fun hx2 => hx.2 (Or.inr hx2)⟩
  · intro hsub
    have hin : h ∈ repoHashes repo \ seen.toFinset := Finset.mem_sdiff.mpr ⟨hmem, hns⟩
    have := hsub hin
    simp [List.toFinset_cons] at this

/-- The visit order of go-git's `NewCommitPreorderIter` from a worklist:
the next hash, unless seen, is visited and its parents are prepended.
Fails like the iterator when a commit object is missing. -/
def preorderAux (repo : Repo) : List String → List String → Except String (List String)
  | [], _ => .ok []
  | h :: rest, seen =>
    if hseen : seen.contains h then preorderAux repo rest seen
    else
      match hfind : findCommit repo h with
      | none => .error "getting commit object"
      | some c => (preorderAux repo (c.parents ++ rest) (h :: seen)).map (fun l => h :: l)
termination_by wl seen => (unseenCard repo seen, wl.length)
decreasing_by
  · exact Prod.Lex.right _ (by simp)
  · exact Prod.Lex.left _ _ (unseenCard_lt hfind hseen)

/-- The full preorder ancestor list of a commit (itself first). -/
def preorderList (repo : Repo) (start : String) : Except String (List String) :=
  preorderAux repo [start] []

/-- The fused traversal of `mostRecentTag` (git.go): iterate the preorder
walk, run the `isExactTag` check at each visited commit, stop at the first
hit (`storer.ErrStop`). -/
def walkAux (repo : Repo) (isPrerelease : Bool) (tagFilter : Option (String → Bool)) :
    List String → List String → Except String (Option TagRef)
  | [], _ => .ok none
  | h :: rest, seen =>
    if hseen : seen.contains h then walkAux repo isPrerelease tagFilter rest seen
    else
      match hfind : findCommit repo h with
      | none => .error "getting commit object"
      | some c =>
        match isExactTagE repo c.hash isPrerelease tagFilter with
        | .error e => .error e
        | .ok (some ref) => .ok (some ref)
        | .ok none => walkAux repo isPrerelease tagFilter (c.parents ++ rest) (h :: seen)
termination_by wl seen => (unseenCard repo seen, wl.length)
decreasing_by
  · exact Prod.Lex.right _ (by simp)
  · exact Prod.Lex.left _ _ (unseenCard_lt hfind hseen)

/-- `mostRecentTag` (git.go). -/
def mostRecentTagE (repo : Repo) (ref : String) (isPrerelease : Bool)
    (tagFilter : Option (String → Bool)) : Except String (Option TagRef) :=
  match findCommit repo ref with
  | none => .error "getting commit object"
  | some c => walkAux repo isPrerelease tagFilter [c.hash] []

/-- `determineBaseVersion` (git.go): exact tag → `(version, true)`; else first
tagged preorder ancestor → `(version, false)`; else `("0.0.0", false)`. -/
def determineBaseVersion (repo : Repo) (revision : String) (isPrerelease : Bool)
    (tagFilter : Option (String → Bool)) : Except String (String × Bool) :=
  match findCommit repo revision with
  | none => .error "getting commit object"
  | some commit =>
    match isExactTagE repo commit.hash isPrerelease tagFilter with
    | .error e => .error ("checking exact tag: " ++ e)
    | .ok (some exactMatch) => .ok (stripModuleTagPrefixes (shortName exactMatch), true)
    | .ok none =>
      match mostRecentTagE repo commit.hash isPrerelease tagFilter with
      | .error e => .error ("finding recent tag: " ++ e)
      | .ok (some recentMatch) => .ok (stripModuleTagPrefixes (shortName recentMatch), false)
      | .ok none => .ok ("0.0.0", false)

/-! ### Version bumper (`getVersionComponents`, git.go lines 51–71) -/

/-- The non-exact bump of `getVersionComponents`: `major == 0` bumps `patch`,
otherwise bump `minor` and reset `patch`; then the prerelease becomes the
single identifier `alpha`.  Exact resolutions pass through unchanged. -/
def applyBump (version : SemVer) (isExact : Bool) : SemVer :=
  if !isExact then
    let v1 :=
      if version.major = 0 then { version with patch := version.patch + 1 }
      else { version with minor := version.minor + 1, patch := 0 }
    { v1 with pre := [⟨"alpha", 0, false⟩] }
  else version

/-- The release-prefix override of `getVersionComponents`: when
`opts.ReleasePrefix` is nonempty it is parsed (a parse failure is fatal) and
its numeric triple replaces the bumped version's triple. -/
def applyReleaseOverride (version : SemVer) (releasePrefixVal : String) :
    Except String SemVer :=
  if releasePrefixVal = "" then .ok version
  else
    match parseSemver releasePrefixVal with
    | .error e => .error ("parsing release prefix " ++ quoted releasePrefixVal ++ ": " ++ e)
    | .ok newVersion =>
      .ok { version with major := newVersion.major, minor := newVersion.minor,
                         patch := newVersion.patch }

/-- `getVersionComponents` (git.go). -/
def getVersionComponents (repo : Repo) (opts : Options) : Except String VersionComponents :=
  match repo.resolve opts.commitish with
  | none => .error "resolving commitish"
  | some revision =>
  match findCommit repo revision with
  | none => .error "getting commit object"
  | some commit =>
  match determineBaseVersion repo revision opts.isPreRelease opts.tagFilter with
  | .error e => .error ("determining base version: " ++ e)
  | .ok bv =>
  match parseSemver bv.1 with
  | .error e => .error ("parsing base version " ++ quoted bv.1 ++ ": " ++ e)
  | .ok parsed =>
  match applyReleaseOverride (applyBump parsed bv.2) opts.releasePrefix with
  | .error e => .error e
  | .ok version =>
  match repo.dirty with
  | .error e => .error ("checking if worktree is dirty: " ++ e)
  | .ok isDirty =>
    .ok ⟨version, isDirty, ofChars (revision.data.take 8), commit.timestamp, bv.2⟩

/-! ### Multi-ecosystem formatter (`buildLanguageVersions`,
`buildPreVersionStrings`, version.go) -/

/-- The prerelease adjustment at the top of `buildLanguageVersions`: a single
prerelease identifier gets the commit timestamp appended as a second,
string-valued identifier; two or more pass through; none stays none. -/
def extendPre (pre : List PRVersion) (timestamp : Int) : List PRVersion :=
  match pre with
  | [p] => [p, ⟨intStr timestamp, 0, false⟩]
  | ps => ps

/-- `buildPreVersionStrings` (version.go): generic and PEP440 prerelease
strings.  The suffix is the timestamp when not exact, else the numeric value
of the second prerelease identifier when one exists; the commit hash is
attached only when neither `omitCommitHash` nor `isPreRelease` is set. -/
def buildPreVersionStrings (genericVersion : SemVer) (components : VersionComponents)
    (opts : Options) : Except String (String × String) :=
  if genericVersion.pre = [] then .ok ("", "")
  else
    let preSuffix :=
      if !components.isExact then "." ++ intStr components.timestamp
      else if genericVersion.pre.length > 1 then
        "." ++ natStr ((genericVersion.pre.getD 1 ⟨"", 0, false⟩).versionNum)
      else ""
    let pythonPreSuffix := if preSuffix = "" then "0" else ofChars (preSuffix.data.drop 1)
    let shortHash :=
      if (!opts.omitCommitHash && !opts.isPreRelease) then "+" ++ components.shortHash else ""
    let preType := (genericVersion.pre.headD ⟨"", 0, false⟩).versionStr
    if preType = "dev" then .ok ("-dev" ++ preSuffix ++ shortHash, "dev" ++ pythonPreSuffix)
    else if preType = "alpha" then .ok ("-alpha" ++ preSuffix ++ shortHash, "a" ++ pythonPreSuffix)
    else if preType = "beta" then .ok ("-beta" ++ preSuffix ++ shortHash, "b" ++ pythonPreSuffix)
    else if preType = "rc" then .ok ("-rc" ++ preSuffix ++ shortHash, "rc" ++ pythonPreSuffix)
    else .error ("invalid prerelease type: " ++ quoted preType)

/-- `buildLanguageVersions` (version.go). -/
def buildLanguageVersions (components : VersionComponents) (opts : Options) :
    Except String LanguageVersions :=
  let genericVersion : SemVer :=
    { major := components.semver.major
      minor := components.semver.minor
      patch := components.semver.patch
      pre := extendPre components.semver.pre components.timestamp
      build := components.semver.build }
  let baseVersion := natStr genericVersion.major ++ "." ++ natStr genericVersion.minor ++
    "." ++ natStr genericVersion.patch
  match buildPreVersionStrings genericVersion components opts with
  | .error e => .error e
  | .ok pv =>
    let withDirty :=
      if components.dirty then
        (pv.1 ++ (if pv.1 = "" then "+" else ".") ++ "dirty", pv.2 ++ "+dirty")
      else pv
    let version := baseVersion ++ withDirty.1
    let pythonVersion := baseVersion ++ withDirty.2
    .ok ⟨version, pythonVersion, "v" ++ version, version, "v" ++ version⟩

/-! ### `Calculate` (version.go) -/

/-- `Calculate` (version.go).  `compileRegex` models `regexp.Compile`, the
external regular-expression collaborator: compiling the tag pattern either
fails or yields a match predicate.  The pattern is compiled only when no
`tagFilter` was supplied, and only after the repository handle is checked. -/
def Calculate (compileRegex : String → Except String (String → Bool)) (opts : Options) :
    Except String LanguageVersions :=
  match opts.repository with
  | none => .error "repository is required"
  | some repo =>
    let opts1 := if opts.commitish = "" then { opts with commitish := "HEAD" } else opts
    let opts2E : Except String Options :=
      if opts1.tagPattern ≠ "" then
        match opts1.tagFilter with
        | none =>
          match compileRegex opts1.tagPattern with
          | .error e => .error ("invalid tag pattern: " ++ e)
          | .ok f => .ok { opts1 with tagFilter := some f }
        | some _ => .ok opts1
      else .ok opts1
    match opts2E with
    | .error e => .error e
    | .ok opts2 =>
      match getVersionComponents repo opts2 with
      | .error e => .error ("calculating version components: " ++ e)
      | .ok components => buildLanguageVersions components opts2

/-! ### Helper lemmas about the scanners -/

theorem str_ext {a b : String} (h : a.data = b.data) : a = b := by
  cases a; cases b; exact congrArg String.mk h

theorem ofChars_eq_empty_iff {l : List Char} : ofChars l = "" ↔ l = [] := by
  constructor
  · intro h; exact ofChars_inj (by simpa [ofChars_data] using h)
  · intro h; subst h; rfl

theorem containsSub_mem {l sub : List Char} (h : containsSub l sub = true) :
    ∀ c ∈ sub, c ∈ l := by
  induction l with
  | nil =>
    intro c hc
    simp only [containsSub] at h
    have := List.isPrefixOf_iff_prefix.mp h
    rw [List.prefix_nil.mp this] at hc
    simp at hc
  | cons d l' ih =>
    intro c hc
    simp only [containsSub, Bool.or_eq_true] at h
    rcases h with h | h
    · exact List.IsPrefix.mem hc (List.isPrefixOf_iff_prefix.mp h)
    · exact List.mem_cons_of_mem _ (ih h c hc)

theorem containsSub_eq_false {l sub : List Char} {c : Char}
    (hc : c ∈ sub) (hl : c ∉ l) : containsSub l sub = false := by
  cases h : containsSub l sub with
  | false => rfl
  | true => exact absurd (containsSub_mem h c hc) hl

theorem containsSub_append_self (x p y : List Char) :
    containsSub (x ++ (p ++ y)) p = true := by
  induction x with
  | nil =>
    cases p with
    | nil => cases y <;> simp [containsSub, List.isPrefixOf]
    | cons a as =>
      simp only [List.nil_append, containsSub, Bool.or_eq_true]
      exact Or.inl (List.isPrefixOf_iff_prefix.mpr ⟨y, by simp⟩)
  | cons d x' ih =>
    simp only [List.cons_append, containsSub, Bool.or_eq_true]
    exact Or.inr ih

theorem contains_char_eq_false {l : List Char} {x : Char}
    (h : ∀ c ∈ l, c ≠ x) : l.contains x = false := by
  cases hc : l.contains x with
  | false => rfl
  | true => exact absurd rfl (h x (List.mem_of_elem_eq_true hc))

theorem breakOnChar_not_mem {sep : Char} {l : List Char} (h : ∀ c ∈ l, c ≠ sep) :
    breakOnChar sep l = (l, none) := by
  induction l with
  | nil => rfl
  | cons c r ih =>
    have hc : c ≠ sep := h c (by simp)
    have ih' := ih (fun d hd => h d (by simp [hd]))
    simp only [breakOnChar, hc, if_false, List.append_eq, ih']

theorem breakOnChar_append {sep : Char} {l r : List Char} (h : ∀ c ∈ l, c ≠ sep) :
    breakOnChar sep (l ++ sep :: r) = (l, some r) := by
  induction l with
  | nil => simp [breakOnChar]
  | cons c l' ih =>
    have hc : c ≠ sep := h c (by simp)
    have ih' := ih (fun d hd => h d (by simp [hd]))
    simp only [List.cons_append, breakOnChar, hc, if_false, List.append_eq, ih']

theorem takeWhile_append_all {p : Char → Bool} {l : List Char} (r : List Char)
    (h : ∀ c ∈ l, p c = true) :
    (l ++ r).takeWhile p = l ++ r.takeWhile p := by
  induction l with
  | nil => simp
  | cons c l' ih =>
    have hc := h c (by simp)
    simp only [List.cons_append, List.takeWhile_cons, hc, if_true]
    rw [ih (fun d hd => h d (by simp [hd]))]

theorem dropWhile_append_all {p : Char → Bool} {l : List Char} (r : List Char)
    (h : ∀ c ∈ l, p c = true) :
    (l ++ r).dropWhile p = r.dropWhile p := by
  induction l with
  | nil => simp
  | cons c l' ih =>
    have hc := h c (by simp)
    simp only [List.cons_append, List.dropWhile_cons, hc, if_true]
    exact ih (fun d hd => h d (by simp [hd]))

theorem replaceFirst_append (pre suf : List Char) {pat : List Char} {p0 : Char} {pt : List Char}
    (hpat : pat = p0 :: pt) (hpre : ∀ c ∈ pre, c ≠ p0) :
    replaceFirst (pre ++ pat ++ suf) pat = pre ++ suf := by
  induction pre with
  | nil =>
    subst hpat
    have hpref : (p0 :: pt).isPrefixOf (p0 :: (pt ++ suf)) = true :=
      List.isPrefixOf_iff_prefix.mpr ⟨suf, by simp⟩
    simp only [List.nil_append, List.cons_append, replaceFirst, hpref, if_true]
    simp [List.drop_succ_cons, List.drop_left]
  | cons c pre' ih =>
    subst hpat
    have hc : c ≠ p0 := hpre c (by simp)
    have hbeq : (p0 == c) = false := beq_eq_false_iff_ne.mpr (Ne.symm hc)
    simp only [List.cons_append, replaceFirst, List.isPrefixOf, hbeq, Bool.false_and,
      Bool.false_eq_true, if_false, List.cons.injEq, true_and]
    exact ih (fun d hd => hpre d (by simp [hd]))

theorem findHashes_nil (lim : Nat) : findHashes [] lim = [] := rfl

theorem findHashes_cons_no_plus {c : Char} (l : List Char) (lim : Nat) (hc : c ≠ '+') :
    findHashes (c :: l) lim = findHashes l lim := by
  by_cases hlim : lim = 0
  · subst hlim
    cases l <;> simp [findHashes, findHashesFuel]
  · have : findHashesFuel ((c :: l).length + 1) (c :: l) lim =
        findHashesFuel (l.length + 1) l lim := by
      simp only [List.length_cons, findHashesFuel, hlim, if_false, hc]
    simpa [findHashes] using this

theorem findHashes_append_no_plus {l : List Char} (r : List Char) (lim : Nat)
    (h : ∀ c ∈ l, c ≠ '+') :
    findHashes (l ++ r) lim = findHashes r lim := by
  induction l with
  | nil => simp
  | cons c l' ih =>
    rw [List.cons_append, findHashes_cons_no_plus _ _ (h c (by simp))]
    exact ih (fun d hd => h d (by simp [hd]))

theorem findHashes_no_plus {l : List Char} (lim : Nat) (h : ∀ c ∈ l, c ≠ '+') :
    findHashes l lim = [] := by
  have := findHashes_append_no_plus (l := l) [] lim h
  simpa using this

theorem findHashes_single_hash {h8 : List Char} {lim : Nat} (hlen : h8.length = 8)
    (hhex : h8.all isLowerHex = true) (hlim : lim ≠ 0) :
    findHashes ('+' :: h8) lim = ['+' :: h8] := by
  rcases h8 with _ | ⟨r1, _ | ⟨r2, _ | ⟨r3, _ | ⟨r4, _ | ⟨r5, _ | ⟨r6, _ |
    ⟨r7, _ | ⟨r8, rest⟩⟩⟩⟩⟩⟩⟩⟩ <;> simp only [List.length_cons, List.length_nil] at hlen
  any_goals omega
  have hrest : rest = [] := List.eq_nil_of_length_eq_zero (by omega)
  subst hrest
  simp only [List.all_cons, List.all_nil, Bool.and_true, Bool.and_eq_true] at hhex
  simp [findHashes, findHashesFuel, hlim, boundaryAfter, hhex]

theorem findNumAux_dot_digits {dn : List Char} (hne : dn ≠ [])
    (hd : ∀ c ∈ dn, c.isDigit = true) : findNumAux ('.' :: dn) = some dn := by
  have htake : dn.takeWhile Char.isDigit = dn := List.takeWhile_eq_self_iff.mpr hd
  have hdrop : dn.dropWhile Char.isDigit = [] := List.dropWhile_eq_nil_iff.mpr hd
  simp [findNumAux, isWordChar, htake, hdrop, boundaryAfter, hne]

/-! ### Kind-token computations of `getPythonPrePrefix` -/

theorem getPythonPrePrefix_dev (r : List Char) :
    getPythonPrePrefix (ofChars ('-' :: 'd' :: 'e' :: 'v' :: r)) = ("dev", ofChars r) := by
  simp +decide [getPythonPrePrefix, ofChars, chars, List.isPrefixOf]

theorem getPythonPrePrefix_alpha (r : List Char) :
    getPythonPrePrefix (ofChars ('-' :: 'a' :: 'l' :: 'p' :: 'h' :: 'a' :: r)) =
      ("a", ofChars r) := by
  simp +decide [getPythonPrePrefix, ofChars, chars, List.isPrefixOf]

theorem getPythonPrePrefix_beta (r : List Char) :
    getPythonPrePrefix (ofChars ('-' :: 'b' :: 'e' :: 't' :: 'a' :: r)) = ("b", ofChars r) := by
  simp +decide [getPythonPrePrefix, ofChars, chars, List.isPrefixOf]

theorem getPythonPrePrefix_rc (r : List Char) :
    getPythonPrePrefix (ofChars ('-' :: 'r' :: 'c' :: r)) = ("rc", ofChars r) := by
  simp +decide [getPythonPrePrefix, ofChars, chars, List.isPrefixOf]

theorem isLowerHex_facts {c : Char} (h : isLowerHex c = true) : c ≠ 'y' ∧ c ≠ '+' := by
  constructor <;> rintro rfl <;> exact absurd h (by decide)

/-- `getPythonPreVersion` on a tail `<kind>.<digits>`: the PEP440 kind token
followed by the digits. -/
theorem getPythonPreVersion_kind_num (kp : List Char) (ktok : String) (dn : List Char)
    (hpref : getPythonPrePrefix (ofChars (kp ++ '.' :: dn)) = (ktok, ofChars ('.' :: dn)))
    (hktok : ktok ≠ "") (hy : 'y' ∉ kp)
    (hdn : ∀ c ∈ dn, c.isDigit = true) (hdnne : dn ≠ []) :
    getPythonPreVersion (ofChars (kp ++ '.' :: dn)) = ktok ++ ofChars dn := by
  have hne : ¬ (ofChars (kp ++ '.' :: dn) = "") := by
    rw [ofChars_eq_empty_iff]; simp
  have hy2 : 'y' ∉ kp ++ '.' :: dn := by
    intro hmem
    rcases List.mem_append.mp hmem with h | h
    · exact hy h
    · rcases List.mem_cons.mp h with h | h
      · exact absurd h (by decide)
      · exact absurd rfl (digit_char_facts (hdn _ h)).2.2.2.2.1
  have hdirty : containsSub (kp ++ '.' :: dn) (chars "dirty") = false :=
    containsSub_eq_false (by decide) hy2
  have hnoplus : findHashes ('.' :: dn) 5 = [] := by
    apply findHashes_no_plus
    intro c hc
    rcases List.mem_cons.mp hc with h | h
    · subst h; decide
    · exact (digit_char_facts (hdn _ h)).2.2.1
  have hnum := findNumAux_dot_digits hdnne hdn
  simp only [getPythonPreVersion, hne, if_false, hpref, data_ofChars, hdirty,
    Bool.false_eq_true, hnoplus, List.getLast?_nil, hnum, ne_eq, hktok, not_false_iff,
    if_true, reduceIte]

/-- `getPythonPreVersion` on a tail `<kind>.<digits>+<hash8>`: the hash token
is stripped before number extraction, so the result is the kind token
followed by the digits — never the hash digits. -/
theorem getPythonPreVersion_kind_num_hash (kp : List Char) (ktok : String) (dn h8 : List Char)
    (hpref : getPythonPrePrefix (ofChars (kp ++ '.' :: (dn ++ '+' :: h8))) =
      (ktok, ofChars ('.' :: (dn ++ '+' :: h8))))
    (hktok : ktok ≠ "") (hy : 'y' ∉ kp)
    (hdn : ∀ c ∈ dn, c.isDigit = true) (hdnne : dn ≠ [])
    (hlen : h8.length = 8) (hhex : h8.all isLowerHex = true) :
    getPythonPreVersion (ofChars (kp ++ '.' :: (dn ++ '+' :: h8))) = ktok ++ ofChars dn := by
  have hne : ¬ (ofChars (kp ++ '.' :: (dn ++ '+' :: h8)) = "") := by
    rw [ofChars_eq_empty_iff]; simp
  have hhex' : ∀ c ∈ h8, isLowerHex c = true := List.all_eq_true.mp hhex
  have hy2 : 'y' ∉ kp ++ '.' :: (dn ++ '+' :: h8) := by
    intro hmem
    rcases List.mem_append.mp hmem with h | h
    · exact hy h
    · rcases List.mem_cons.mp h with h | h
      · exact absurd h (by decide)
      · rcases List.mem_append.mp h with h | h
        · exact absurd rfl (digit_char_facts (hdn _ h)).2.2.2.2.1
        · rcases List.mem_cons.mp h with h | h
          · exact absurd h (by decide)
          · exact absurd rfl (isLowerHex_facts (hhex' _ h)).1
  have hdirty : containsSub (kp ++ '.' :: (dn ++ '+' :: h8)) (chars "dirty") = false :=
    containsSub_eq_false (by decide) hy2
  have hpredot : ∀ c ∈ '.' :: dn, c ≠ '+' := by
    intro c hc
    rcases List.mem_cons.mp hc with h | h
    · subst h; decide
    · exact (digit_char_facts (hdn _ h)).2.2.1
  have hshape : '.' :: (dn ++ '+' :: h8) = ('.' :: dn) ++ ('+' :: h8) := by simp
  have hfind : findHashes ('.' :: (dn ++ '+' :: h8)) 5 = ['+' :: h8] := by
    rw [hshape, findHashes_append_no_plus _ 5 hpredot,
      findHashes_single_hash hlen hhex (by omega)]
  have hrepl : replaceFirst ('.' :: (dn ++ '+' :: h8)) ('+' :: h8) = '.' :: dn := by
    have := replaceFirst_append ('.' :: dn) [] (rfl : ('+' :: h8) = '+' :: h8) hpredot
    simpa using this
  have hnum := findNumAux_dot_digits hdnne hdn
  simp only [getPythonPreVersion, hne, if_false, hpref, data_ofChars, hdirty,
    Bool.false_eq_true, hfind, List.getLast?_singleton, hrepl, hnum, ne_eq, hktok,
    not_false_iff, if_true, reduceIte]

theorem trimPre_not_v {l : List Char} {c : Char} {t : List Char}
    (hl : l = c :: t) (hc : c ≠ 'v') : trimPre (chars "v") l = l := by
  subst hl
  have : (chars "v").isPrefixOf (c :: t) = false := by
    have hbeq : ('v' == c) = false := beq_eq_false_iff_ne.mpr (Ne.symm hc)
    have hv : chars "v" = ['v'] := by decide
    simp [hv, List.isPrefixOf, hbeq]
  simp [trimPre, this]

theorem natStr_head (n : Nat) :
    ∃ c t, (natStr n).data = c :: t ∧ c.isDigit = true ∧ c ≠ 'v' := by
  cases h : (natStr n).data with
  | nil => exact absurd h (natStr_ne_empty n)
  | cons c t =>
    have hd : c.isDigit = true := natStr_all_digits n c (by rw [h]; simp)
    refine ⟨c, t, rfl, hd, ?_⟩
    rintro rfl
    exact absurd hd (by decide)

theorem natStr_not_dot (n : Nat) : ∀ c ∈ (natStr n).data, c ≠ '.' :=
  fun c hc => (digit_char_facts (natStr_all_digits n c hc)).1

/-- `splitNAux` with limit 3 on a string with exactly two separator-free
front parts. -/
theorem splitN3_two_dots (c2 : List Char) {a b : List Char}
    (ha : ∀ ch ∈ a, ch ≠ '.') (hb : ∀ ch ∈ b, ch ≠ '.') :
    splitNAux '.' 3 (a ++ '.' :: (b ++ '.' :: c2)) = [a, b, c2] := by
  simp only [splitNAux, breakOnChar_append ha, breakOnChar_append hb]

/-- `convertPatchToPython` on `digits ++ "-" ++ rest` (no newline): the digits
followed by the converted prerelease tail. -/
theorem convertPatchToPython_shape (zd rest : List Char)
    (hzd : ∀ c ∈ zd, c.isDigit = true) (hzdne : zd ≠ [])
    (hnl : ∀ c ∈ rest, c ≠ '\n') :
    convertPatchToPython (ofChars (zd ++ '-' :: rest)) =
      ofChars zd ++ getPythonPreVersion (ofChars ('-' :: rest)) := by
  rcases zd with _ | ⟨z0, zt⟩
  · exact absurd rfl hzdne
  have hz0 : z0.isDigit = true := hzd z0 (by simp)
  have hzt : ∀ c ∈ zt, c.isDigit = true := fun c hc => hzd c (by simp [hc])
  have htake : ((z0 :: zt) ++ '-' :: rest).takeWhile Char.isDigit = z0 :: zt := by
    rw [takeWhile_append_all _ hzd]
    simp [List.takeWhile_cons]
  have hdrop : ((z0 :: zt) ++ '-' :: rest).dropWhile Char.isDigit = '-' :: rest := by
    rw [dropWhile_append_all _ hzd]
    simp [List.dropWhile_cons]
  have hcont : (('-' :: rest).contains '\n') = false := by
    apply contains_char_eq_false
    intro c hc
    rcases List.mem_cons.mp hc with h | h
    · subst h; decide
    · exact hnl c h
  simp only [convertPatchToPython, data_ofChars, List.cons_append, hz0, if_true]
  simp only [← List.cons_append, htake, hdrop, hcont, Bool.false_eq_true, if_false, reduceIte]

/-! ### Concrete repositories used as witnesses and counterexamples -/

/-- One commit, clean worktree, lightweight tag `v1.2.3` on it. -/
def repoCleanTagged : Repo :=
  { commits := [⟨"aaaaaaaaaaaaaaaaaaaaaaaaaaaaaaaaaaaaaaaa", [], 1700000000⟩]
    tags := .ok [⟨"refs/tags/v1.2.3", "aaaaaaaaaaaaaaaaaaaaaaaaaaaaaaaaaaaaaaaa"⟩]
    annotated := fun _ => none
    resolve := fun s =>
      if s = "HEAD" then some "aaaaaaaaaaaaaaaaaaaaaaaaaaaaaaaaaaaaaaaa" else none
    dirty := .ok false }

/-- Same repository with a dirty worktree. -/
def repoDirtyTagged : Repo := { repoCleanTagged with dirty := .ok true }

/-- A repository whose every query fails: reaching any of them is visible in
the error result. -/
def repoUnqueryable : Repo :=
  { commits := []
    tags := .error "tags never listed"
    annotated := fun _ => none
    resolve := fun _ => none
    dirty := .error "status never queried" }

/-! ### Claims -/

/-- C1: for every successfully parsed base version, the non-exact bump
increments `patch` when `major = 0` (major/minor unchanged), otherwise
increments `minor` and resets `patch`, and in both cases sets the prerelease
to the single `alpha` identifier; an exact resolution passes the parsed
version through unchanged. -/
theorem claim1_bump_policy (v : SemVer) :
    applyBump v true = v ∧
    (v.major = 0 → applyBump v false =
      { v with patch := v.patch + 1, pre := [⟨"alpha", 0, false⟩] }) ∧
    (1 ≤ v.major → applyBump v false =
      { v with minor := v.minor + 1, patch := 0, pre := [⟨"alpha", 0, false⟩] }) := by
  refine ⟨rfl, fun h0 => ?_, fun h1 => ?_⟩
  · simp [applyBump, h0]
  · have hne : ¬ v.major = 0 := by omega
    simp [applyBump, hne]

theorem claim1_bump_policy_witness :
    applyBump ⟨0, 1, 2, [], []⟩ false = ⟨0, 1, 3, [⟨"alpha", 0, false⟩], []⟩ ∧
    applyBump ⟨2, 3, 4, [], []⟩ false = ⟨2, 4, 0, [⟨"alpha", 0, false⟩], []⟩ :=
  ⟨(claim1_bump_policy ⟨0, 1, 2, [], []⟩).2.1 rfl,
   (claim1_bump_policy ⟨2, 3, 4, [], []⟩).2.2 (by decide)⟩

/-- C10: `Calculate` with a nil repository fails with "repository is
required".  The statement is universal in the regex compiler and in every
other option field, so the failure happens before tag-pattern compilation or
any repository query. -/
theorem claim10_nil_repository
    (compileRegex : String → Except String (String → Bool)) (opts : Options)
    (h : opts.repository = none) :
    Calculate compileRegex opts = .error "repository is required" := by
  simp [Calculate, h]

theorem claim10_nil_repository_witness :
    Calculate (fun p => .ok (fun s => p = s)) ⟨none, "", true, "oops", true, none, "("⟩ =
      .error "repository is required" :=
  claim10_nil_repository _ _ rfl

/-- C8 (counterexample): an invalid tag pattern is silently ignored when a
`tagFilter` is also supplied — `Calculate` succeeds even though the compiler
rejects the pattern, contradicting the claim that every syntactically
invalid `tagPattern` makes the whole call fail. -/
theorem claim8_counterexample :
    Calculate (fun _ => .error "syntax error")
      ⟨some repoCleanTagged, "HEAD", false, "", false, some (fun _ => true), "("⟩ =
      .ok ⟨"1.2.3", "1.2.3", "v1.2.3", "1.2.3", "v1.2.3"⟩ := by decide

/-- C8 (amended): when `tagFilter` is absent and `tagPattern` is nonempty,
the pattern is compiled into the filter, and a compilation failure aborts
`Calculate` with the "invalid tag pattern" input error.  The statement is
universal in the repository — including one whose tag listing and status
queries themselves fail — so the failure happens before any tag listing or
ancestry walk. -/
theorem claim8_invalid_pattern_fail_fast
    (compileRegex : String → Except String (String → Bool)) (opts : Options)
    (repo : Repo) (e : String)
    (hrepo : opts.repository = some repo) (hfil : opts.tagFilter = none)
    (hpat : opts.tagPattern ≠ "") (hc : compileRegex opts.tagPattern = .error e) :
    Calculate compileRegex opts = .error ("invalid tag pattern: " ++ e) := by
  by_cases hcm : opts.commitish = "" <;>
    simp [Calculate, hrepo, hcm, hpat, hfil, hc]

theorem claim8_invalid_pattern_fail_fast_witness :
    Calculate (fun _ => .error "missing closing paren")
      ⟨some repoUnqueryable, "HEAD", false, "", false, none, "("⟩ =
      .error "invalid tag pattern: missing closing paren" :=
  claim8_invalid_pattern_fail_fast _ _ repoUnqueryable _ rfl rfl (by decide) rfl

/-- C4: `CalculateFromString "1.2.3"` yields exactly the five expected
strings, and every input whose (v-stripped) dot-split has fewer than 3 parts
fails with the "must have exactly 3 parts" input error. -/
theorem claim4_convert_three_parts :
    CalculateFromString "1.2.3" = .ok ⟨"1.2.3", "1.2.3", "v1.2.3", "1.2.3", "v1.2.3"⟩ ∧
    (∀ s : String, (splitNAux '.' 3 (trimPre (chars "v") s.data)).length < 3 →
      ∃ e, CalculateFromString s = .error e ∧
        containsSub e.data (chars "must have exactly 3 parts") = true) := by
  have key : ∀ msg : String,
      containsSub ("version must have exactly 3 parts: " ++ msg).data
        (chars "must have exactly 3 parts") = true := by
    intro msg
    have hdec : chars "version must have exactly 3 parts: " =
        (chars "version ") ++ ((chars "must have exactly 3 parts") ++ (chars ": ")) := by
      decide
    have hrew : ("version must have exactly 3 parts: " ++ msg).data =
        (chars "version ") ++ ((chars "must have exactly 3 parts") ++
          ((chars ": ") ++ msg.data)) := by
      rw [data_append]
      rw [show ("version must have exactly 3 parts: " : String).data =
        chars "version must have exactly 3 parts: " from rfl, hdec]
      simp only [List.append_assoc]
    rw [hrew]
    exact containsSub_append_self _ _ _
  constructor
  · decide
  · intro s hlen
    rcases hsplit : splitNAux '.' 3 (trimPre (chars "v") s.data)
      with _ | ⟨a, _ | ⟨b, _ | ⟨c, t⟩⟩⟩
    · refine ⟨"version must have exactly 3 parts: " ++ quoted s, ?_, key (quoted s)⟩
      simp only [CalculateFromString, hsplit]
    · refine ⟨"version must have exactly 3 parts: " ++ quoted s, ?_, key (quoted s)⟩
      simp only [CalculateFromString, hsplit]
    · refine ⟨"version must have exactly 3 parts: " ++ quoted s, ?_, key (quoted s)⟩
      simp only [CalculateFromString, hsplit]
    · rw [hsplit] at hlen
      simp at hlen
      omega

theorem claim4_convert_three_parts_witness :
    (splitNAux '.' 3 (trimPre (chars "v") ("1.2" : String).data)).length < 3 ∧
    ∃ e, CalculateFromString "1.2" = .error e ∧
      containsSub e.data (chars "must have exactly 3 parts") = true :=
  ⟨by decide, claim4_convert_three_parts.2 "1.2" (by decide)⟩

/-- C2 (counterexample): with an exact, visible tag `v1.2.3` but a dirty
worktree, the generic output is `1.2.3+dirty`, not `1.2.3` — the claim as
stated fails for repository states with a dirty worktree. -/
theorem claim2_counterexample :
    Calculate (fun _ => .error "unused")
      ⟨some repoDirtyTagged, "HEAD", false, "", false, none, ""⟩ =
      .ok ⟨"1.2.3+dirty", "1.2.3+dirty", "v1.2.3+dirty", "1.2.3+dirty", "v1.2.3+dirty"⟩ ∧
    ("1.2.3+dirty" : String) ≠ "1.2.3" := by decide

/-- C5 (counterexample): with two hash tokens, only the last-found token is
stripped, and the digits of the remaining hash token `+12345678` are then
extracted as the PEP440 ordinal — `rc12345678`, not the default `rc0` — so
hash digits can be read as the prerelease ordinal, contrary to the claim. -/
theorem claim5_counterexample :
    getPythonPreVersion "-rc+12345678+12ab34cd" = "rc12345678" ∧
    ("rc12345678" : String) ≠ "rc0" := by decide

/-- C6 (counterexample): exact resolution with the single-token prerelease
`1.2.3-alpha` yields the suffix `.0` (the numeric field of the appended
timestamp identifier is 0), not an empty suffix as claimed: the generic
output is `1.2.3-alpha.0`, not `1.2.3-alpha`. -/
theorem claim6_counterexample :
    buildLanguageVersions ⟨⟨1, 2, 3, [⟨"alpha", 0, false⟩], []⟩, false, "abcd1234",
        1700000000, true⟩
      ⟨none, "HEAD", true, "", false, none, ""⟩ =
      .ok ⟨"1.2.3-alpha.0", "1.2.3a0", "v1.2.3-alpha.0", "1.2.3-alpha.0",
        "v1.2.3-alpha.0"⟩ ∧
    ("1.2.3-alpha.0" : String) ≠ "1.2.3-alpha" := by decide

/-- C5 (amended): strip the kind, strip `dirty`, strip the hash token, then
extract the ordinal — so for every tail `-<kind>.<n>+<hash8>` with a single
8-hex-digit hash token (even one beginning with digits), the extracted
ordinal is `n`, never the hash digits. -/
theorem claim5_single_hash_safe (n : Nat) (h8 : List Char) (k t : String)
    (hk : (k, t) ∈ [("dev", "dev"), ("alpha", "a"), ("beta", "b"), ("rc", "rc")])
    (hlen : h8.length = 8) (hhex : h8.all isLowerHex = true) :
    getPythonPreVersion ("-" ++ k ++ "." ++ natStr n ++ "+" ++ ofChars h8) =
      t ++ natStr n := by
  have main : ∀ (kchars : List Char) (ktok : String),
      getPythonPrePrefix (ofChars (('-' :: kchars) ++
          ('.' :: ((natStr n).data ++ '+' :: h8)))) =
        (ktok, ofChars ('.' :: ((natStr n).data ++ '+' :: h8))) →
      ktok ≠ "" → 'y' ∉ ('-' :: kchars) →
      getPythonPreVersion (ofChars (('-' :: kchars) ++
          ('.' :: ((natStr n).data ++ '+' :: h8)))) = ktok ++ natStr n := by
    intro kchars ktok hpref hktok hy
    have := getPythonPreVersion_kind_num_hash ('-' :: kchars) ktok (natStr n).data h8
      hpref hktok hy (natStr_all_digits n) (natStr_ne_empty n) hlen hhex
    simpa [ofChars_data] using this
  have e1 : ("-" : String).data = ['-'] := by decide
  have e3 : ("." : String).data = ['.'] := by decide
  have e4 : ("+" : String).data = ['+'] := by decide
  simp only [List.mem_cons, List.not_mem_nil, or_false, Prod.mk.injEq] at hk
  rcases hk with ⟨rfl, rfl⟩ | ⟨rfl, rfl⟩ | ⟨rfl, rfl⟩ | ⟨rfl, rfl⟩
  · have hstr : ("-" ++ "dev" ++ "." ++ natStr n ++ "+" ++ ofChars h8) =
        ofChars (('-' :: ['d', 'e', 'v']) ++ ('.' :: ((natStr n).data ++ '+' :: h8))) := by
      apply str_ext
      have e2 : ("dev" : String).data = ['d', 'e', 'v'] := by decide
      simp [data_append, data_ofChars, e1, e2, e3, e4]
    rw [hstr]
    exact main ['d', 'e', 'v'] "dev" (getPythonPrePrefix_dev _) (by decide) (by decide)
  · have hstr : ("-" ++ "alpha" ++ "." ++ natStr n ++ "+" ++ ofChars h8) =
        ofChars (('-' :: ['a', 'l', 'p', 'h', 'a']) ++
          ('.' :: ((natStr n).data ++ '+' :: h8))) := by
      apply str_ext
      have e2 : ("alpha" : String).data = ['a', 'l', 'p', 'h', 'a'] := by decide
      simp [data_append, data_ofChars, e1, e2, e3, e4]
    rw [hstr]
    exact main ['a', 'l', 'p', 'h', 'a'] "a" (getPythonPrePrefix_alpha _) (by decide) (by decide)
  · have hstr : ("-" ++ "beta" ++ "." ++ natStr n ++ "+" ++ ofChars h8) =
        ofChars (('-' :: ['b', 'e', 't', 'a']) ++ ('.' :: ((natStr n).data ++ '+' :: h8))) := by
      apply str_ext
      have e2 : ("beta" : String).data = ['b', 'e', 't', 'a'] := by decide
      simp [data_append, data_ofChars, e1, e2, e3, e4]
    rw [hstr]
    exact main ['b', 'e', 't', 'a'] "b" (getPythonPrePrefix_beta _) (by decide) (by decide)
  · have hstr : ("-" ++ "rc" ++ "." ++ natStr n ++ "+" ++ ofChars h8) =
        ofChars (('-' :: ['r', 'c']) ++ ('.' :: ((natStr n).data ++ '+' :: h8))) := by
      apply str_ext
      have e2 : ("rc" : String).data = ['r', 'c'] := by decide
      simp [data_append, data_ofChars, e1, e2, e3, e4]
    rw [hstr]
    exact main ['r', 'c'] "rc" (getPythonPrePrefix_rc _) (by decide) (by decide)

theorem claim5_single_hash_safe_witness :
    getPythonPreVersion ("-" ++ "rc" ++ "." ++ natStr 1 ++ "+" ++
      ofChars ['1', '2', 'a', 'b', '3', '4', 'c', 'd']) = "rc" ++ natStr 1 :=
  claim5_single_hash_safe 1 ['1', '2', 'a', 'b', '3', '4', 'c', 'd'] "rc" "rc"
    (by decide) (by decide) (by decide)

/-- Full evaluation of `CalculateFromString` on a three-part input whose
patch part is `digits-<tail>`. -/
theorem calculateFromString_split (xd yd zd tail : List Char)
    (c0 : Char) (t0 : List Char) (hx : xd = c0 :: t0) (hxv : c0 ≠ 'v')
    (hxdot : ∀ c ∈ xd, c ≠ '.') (hydot : ∀ c ∈ yd, c ≠ '.')
    (hzd : ∀ c ∈ zd, c.isDigit = true) (hzdne : zd ≠ [])
    (hnl : ∀ c ∈ tail, c ≠ '\n') :
    CalculateFromString (ofChars (xd ++ '.' :: (yd ++ '.' :: (zd ++ '-' :: tail)))) =
      .ok ⟨ofChars (xd ++ '.' :: (yd ++ '.' :: (zd ++ '-' :: tail))),
           ofChars xd ++ "." ++ ofChars yd ++ "." ++
             (ofChars zd ++ getPythonPreVersion (ofChars ('-' :: tail))),
           "v" ++ ofChars (xd ++ '.' :: (yd ++ '.' :: (zd ++ '-' :: tail))),
           ofChars (xd ++ '.' :: (yd ++ '.' :: (zd ++ '-' :: tail))),
           "v" ++ ofChars (xd ++ '.' :: (yd ++ '.' :: (zd ++ '-' :: tail)))⟩ := by
  have htrim : trimPre (chars "v") (xd ++ '.' :: (yd ++ '.' :: (zd ++ '-' :: tail))) =
      xd ++ '.' :: (yd ++ '.' :: (zd ++ '-' :: tail)) :=
    trimPre_not_v (by rw [hx]; rfl) hxv
  have hsplit := splitN3_two_dots (zd ++ '-' :: tail) hxdot hydot
  have hconv := convertPatchToPython_shape zd tail hzd hzdne hnl
  simp only [CalculateFromString, data_ofChars, htrim, hsplit, hconv]
  simp only [Except.ok.injEq, LanguageVersions.mk.injEq]
  have e3 : ("." : String).data = ['.'] := by decide
  have ev : ("v" : String).data = ['v'] := by decide
  refine ⟨?_, ?_, ?_, ?_, ?_⟩ <;> first
    | trivial
    | (apply str_ext; simp [data_append, data_ofChars, e3, ev])

/-- C3: the PEP440 output of `CalculateFromString` on `X.Y.Z-<kind>.<n>` maps
`dev → dev`, `alpha → a`, `beta → b`, `rc → rc` and preserves the ordinal
`n`; the other four outputs carry the generic string through unchanged. -/
theorem claim3_pep440_mapping (x y z n : Nat) (k t : String)
    (hk : (k, t) ∈ [("dev", "dev"), ("alpha", "a"), ("beta", "b"), ("rc", "rc")]) :
    CalculateFromString
        (natStr x ++ "." ++ natStr y ++ "." ++ natStr z ++ "-" ++ k ++ "." ++ natStr n) =
      .ok ⟨natStr x ++ "." ++ natStr y ++ "." ++ natStr z ++ "-" ++ k ++ "." ++ natStr n,
           natStr x ++ "." ++ natStr y ++ "." ++ natStr z ++ t ++ natStr n,
           "v" ++ (natStr x ++ "." ++ natStr y ++ "." ++ natStr z ++ "-" ++ k ++ "." ++ natStr n),
           natStr x ++ "." ++ natStr y ++ "." ++ natStr z ++ "-" ++ k ++ "." ++ natStr n,
           "v" ++ (natStr x ++ "." ++ natStr y ++ "." ++ natStr z ++ "-" ++ k ++ "." ++
             natStr n)⟩ := by
  obtain ⟨c0, t0, hx, _, hxv⟩ := natStr_head x
  have e1 : ("-" : String).data = ['-'] := by decide
  have e3 : ("." : String).data = ['.'] := by decide
  have ev : ("v" : String).data = ['v'] := by decide
  simp only [List.mem_cons, List.not_mem_nil, or_false, Prod.mk.injEq] at hk
  have mainCase : ∀ (kd : List Char) (ktok : String),
      (∀ c ∈ kd, c ≠ '\n') →
      (getPythonPreVersion (ofChars ('-' :: (kd ++ '.' :: (natStr n).data))) =
        ktok ++ natStr n) →
      (natStr x ++ "." ++ natStr y ++ "." ++ natStr z).data ++
          ('-' :: (kd ++ '.' :: (natStr n).data)) =
        (natStr x).data ++ '.' :: ((natStr y).data ++ '.' ::
          ((natStr z).data ++ '-' :: (kd ++ '.' :: (natStr n).data))) →
      CalculateFromString (ofChars ((natStr x).data ++ '.' :: ((natStr y).data ++ '.' ::
          ((natStr z).data ++ '-' :: (kd ++ '.' :: (natStr n).data))))) =
        .ok ⟨ofChars ((natStr x).data ++ '.' :: ((natStr y).data ++ '.' ::
              ((natStr z).data ++ '-' :: (kd ++ '.' :: (natStr n).data)))),
             natStr x ++ "." ++ natStr y ++ "." ++ natStr z ++ ktok ++ natStr n,
             "v" ++ ofChars ((natStr x).data ++ '.' :: ((natStr y).data ++ '.' ::
              ((natStr z).data ++ '-' :: (kd ++ '.' :: (natStr n).data)))),
             ofChars ((natStr x).data ++ '.' :: ((natStr y).data ++ '.' ::
              ((natStr z).data ++ '-' :: (kd ++ '.' :: (natStr n).data)))),
             "v" ++ ofChars ((natStr x).data ++ '.' :: ((natStr y).data ++ '.' ::
              ((natStr z).data ++ '-' :: (kd ++ '.' :: (natStr n).data))))⟩ := by
    intro kd ktok hknl hpy _
    have hnl : ∀ c ∈ kd ++ '.' :: (natStr n).data, c ≠ '\n' := by
      intro c hc
      rcases List.mem_append.mp hc with h | h
      · exact hknl c h
      · rcases List.mem_cons.mp h with h | h
        · subst h; decide
        · exact (digit_char_facts (natStr_all_digits n c h)).2.2.2.2.2.1
    rw [calculateFromString_split (natStr x).data (natStr y).data (natStr z).data
      (kd ++ '.' :: (natStr n).data) c0 t0 hx hxv (natStr_not_dot x) (natStr_not_dot y)
      (natStr_all_digits z) (natStr_ne_empty z) hnl]
    simp only [Except.ok.injEq, LanguageVersions.mk.injEq, hpy]
    refine ⟨?_, ?_, ?_, ?_, ?_⟩ <;> first
      | trivial
      | rfl
      | (apply str_ext; simp [data_append, data_ofChars, e3])
  rcases hk with ⟨rfl, rfl⟩ | ⟨rfl, rfl⟩ | ⟨rfl, rfl⟩ | ⟨rfl, rfl⟩
  · have e2 : ("dev" : String).data = ['d', 'e', 'v'] := by decide
    have hdata : (natStr x ++ "." ++ natStr y ++ "." ++ natStr z ++ "-" ++ "dev" ++ "." ++
        natStr n).data = (natStr x).data ++ '.' :: ((natStr y).data ++ '.' ::
          ((natStr z).data ++ '-' :: (['d', 'e', 'v'] ++ '.' :: (natStr n).data))) := by
      simp [data_append, data_ofChars, e1, e2, e3]
    have hpy : getPythonPreVersion (ofChars ('-' :: (['d', 'e', 'v'] ++
        '.' :: (natStr n).data))) = "dev" ++ natStr n := by
      have := getPythonPreVersion_kind_num ['-', 'd', 'e', 'v'] "dev" (natStr n).data
        (getPythonPrePrefix_dev _) (by decide) (by decide)
        (natStr_all_digits n) (natStr_ne_empty n)
      simpa [ofChars_data] using this
    rw [show (natStr x ++ "." ++ natStr y ++ "." ++ natStr z ++ "-" ++ "dev" ++ "." ++
        natStr n) = ofChars ((natStr x).data ++ '.' :: ((natStr y).data ++ '.' ::
          ((natStr z).data ++ '-' :: (['d', 'e', 'v'] ++ '.' :: (natStr n).data)))) from
      str_ext hdata]
    rw [mainCase ['d', 'e', 'v'] "dev" (by decide) hpy (by simp [data_append, e1, e2, e3])]

  · have e2 : ("alpha" : String).data = ['a', 'l', 'p', 'h', 'a'] := by decide
    have hdata : (natStr x ++ "." ++ natStr y ++ "." ++ natStr z ++ "-" ++ "alpha" ++ "." ++
        natStr n).data = (natStr x).data ++ '.' :: ((natStr y).data ++ '.' ::
          ((natStr z).data ++ '-' :: (['a', 'l', 'p', 'h', 'a'] ++ '.' :: (natStr n).data))) := by
      simp [data_append, data_ofChars, e1, e2, e3]
    have hpy : getPythonPreVersion (ofChars ('-' :: (['a', 'l', 'p', 'h', 'a'] ++
        '.' :: (natStr n).data))) = "a" ++ natStr n := by
      have := getPythonPreVersion_kind_num ['-', 'a', 'l', 'p', 'h', 'a'] "a" (natStr n).data
        (getPythonPrePrefix_alpha _) (by decide) (by decide)
        (natStr_all_digits n) (natStr_ne_empty n)
      simpa [ofChars_data] using this
    rw [show (natStr x ++ "." ++ natStr y ++ "." ++ natStr z ++ "-" ++ "alpha" ++ "." ++
        natStr n) = ofChars ((natStr x).data ++ '.' :: ((natStr y).data ++ '.' ::
          ((natStr z).data ++ '-' :: (['a', 'l', 'p', 'h', 'a'] ++ '.' :: (natStr n).data)))) from
      str_ext hdata]
    rw [mainCase ['a', 'l', 'p', 'h', 'a'] "a" (by decide) hpy (by simp [data_append, e1, e2, e3])]

  · have e2 : ("beta" : String).data = ['b', 'e', 't', 'a'] := by decide
    have hdata : (natStr x ++ "." ++ natStr y ++ "." ++ natStr z ++ "-" ++ "beta" ++ "." ++
        natStr n).data = (natStr x).data ++ '.' :: ((natStr y).data ++ '.' ::
          ((natStr z).data ++ '-' :: (['b', 'e', 't', 'a'] ++ '.' :: (natStr n).data))) := by
      simp [data_append, data_ofChars, e1, e2, e3]
    have hpy : getPythonPreVersion (ofChars ('-' :: (['b', 'e', 't', 'a'] ++
        '.' :: (natStr n).data))) = "b" ++ natStr n := by
      have := getPythonPreVersion_kind_num ['-', 'b', 'e', 't', 'a'] "b" (natStr n).data
        (getPythonPrePrefix_beta _) (by decide) (by decide)
        (natStr_all_digits n) (natStr_ne_empty n)
      simpa [ofChars_data] using this
    rw [show (natStr x ++ "." ++ natStr y ++ "." ++ natStr z ++ "-" ++ "beta" ++ "." ++
        natStr n) = ofChars ((natStr x).data ++ '.' :: ((natStr y).data ++ '.' ::
          ((natStr z).data ++ '-' :: (['b', 'e', 't', 'a'] ++ '.' :: (natStr n).data)))) from
      str_ext hdata]
    rw [mainCase ['b', 'e', 't', 'a'] "b" (by decide) hpy (by simp [data_append, e1, e2, e3])]

  · have e2 : ("rc" : String).data = ['r', 'c'] := by decide
    have hdata : (natStr x ++ "." ++ natStr y ++ "." ++ natStr z ++ "-" ++ "rc" ++ "." ++
        natStr n).data = (natStr x).data ++ '.' :: ((natStr y).data ++ '.' ::
          ((natStr z).data ++ '-' :: (['r', 'c'] ++ '.' :: (natStr n).data))) := by
      simp [data_append, data_ofChars, e1, e2, e3]
    have hpy : getPythonPreVersion (ofChars ('-' :: (['r', 'c'] ++
        '.' :: (natStr n).data))) = "rc" ++ natStr n := by
      have := getPythonPreVersion_kind_num ['-', 'r', 'c'] "rc" (natStr n).data
        (getPythonPrePrefix_rc _) (by decide) (by decide)
        (natStr_all_digits n) (natStr_ne_empty n)
      simpa [ofChars_data] using this
    rw [show (natStr x ++ "." ++ natStr y ++ "." ++ natStr z ++ "-" ++ "rc" ++ "." ++
        natStr n) = ofChars ((natStr x).data ++ '.' :: ((natStr y).data ++ '.' ::
          ((natStr z).data ++ '-' :: (['r', 'c'] ++ '.' :: (natStr n).data)))) from
      str_ext hdata]
    rw [mainCase ['r', 'c'] "rc" (by decide) hpy (by simp [data_append, e1, e2, e3])]


theorem claim3_pep440_mapping_witness :
    CalculateFromString (natStr 1 ++ "." ++ natStr 2 ++ "." ++ natStr 3 ++ "-" ++ "alpha" ++
        "." ++ natStr 1) =
      .ok ⟨natStr 1 ++ "." ++ natStr 2 ++ "." ++ natStr 3 ++ "-" ++ "alpha" ++ "." ++ natStr 1,
           natStr 1 ++ "." ++ natStr 2 ++ "." ++ natStr 3 ++ "a" ++ natStr 1,
           "v" ++ (natStr 1 ++ "." ++ natStr 2 ++ "." ++ natStr 3 ++ "-" ++ "alpha" ++ "." ++
             natStr 1),
           natStr 1 ++ "." ++ natStr 2 ++ "." ++ natStr 3 ++ "-" ++ "alpha" ++ "." ++ natStr 1,
           "v" ++ (natStr 1 ++ "." ++ natStr 2 ++ "." ++ natStr 3 ++ "-" ++ "alpha" ++ "." ++
             natStr 1)⟩ :=
  claim3_pep440_mapping 1 2 3 1 "alpha" "a" (by decide)

theorem extendPre_cons_cons (p q : PRVersion) (ps : List PRVersion) (ts : Int) :
    extendPre (p :: q :: ps) ts = p :: q :: ps := rfl

theorem extendPre_single (p : PRVersion) (ts : Int) :
    extendPre [p] ts = [p, ⟨intStr ts, 0, false⟩] := rfl

theorem dot_append_ne_empty (s : String) : ("." ++ s) ≠ "" := by
  intro hcon
  have := congrArg String.data hcon
  rw [data_append] at this
  exact absurd this (by simp [show ("." : String).data = ['.'] from by decide])

theorem dot_append_drop_one (s : String) : ofChars ((("." ++ s) : String).data.drop 1) = s := by
  apply str_ext
  rw [data_ofChars, data_append, show ("." : String).data = ['.'] from by decide]
  simp

/-- Evaluation of `buildPreVersionStrings` when the prerelease suffix has the
form `"." ++ S`, for each of the four valid kinds. -/
theorem buildPre_kind (gv : SemVer) (components : VersionComponents) (opts : Options)
    (k t S : String) (p : PRVersion)
    (hk : (k, t) ∈ [("dev", "dev"), ("alpha", "a"), ("beta", "b"), ("rc", "rc")])
    (hne : gv.pre ≠ []) (hhead : gv.pre.headD ⟨"", 0, false⟩ = p) (hp : p.versionStr = k)
    (hS : (if !components.isExact then "." ++ intStr components.timestamp
           else if gv.pre.length > 1 then
             "." ++ natStr ((gv.pre.getD 1 ⟨"", 0, false⟩).versionNum)
           else "") = "." ++ S) :
    buildPreVersionStrings gv components opts =
      .ok ("-" ++ k ++ ("." ++ S) ++
            (if (!opts.omitCommitHash && !opts.isPreRelease) then
              "+" ++ components.shortHash else ""),
           t ++ S) := by
  have hdrop := dot_append_drop_one S
  have hsne := dot_append_ne_empty S
  have eDash : ("-" : String).data = ['-'] := by decide
  have eDev : ("dev" : String).data = ['d', 'e', 'v'] := by decide
  have eAlpha : ("alpha" : String).data = ['a', 'l', 'p', 'h', 'a'] := by decide
  have eBeta : ("beta" : String).data = ['b', 'e', 't', 'a'] := by decide
  have eRc : ("rc" : String).data = ['r', 'c'] := by decide
  have eDashDev : ("-dev" : String).data = ['-', 'd', 'e', 'v'] := by decide
  have eDashAlpha : ("-alpha" : String).data = ['-', 'a', 'l', 'p', 'h', 'a'] := by decide
  have eDashBeta : ("-beta" : String).data = ['-', 'b', 'e', 't', 'a'] := by decide
  have eDashRc : ("-rc" : String).data = ['-', 'r', 'c'] := by decide
  simp only [List.mem_cons, List.not_mem_nil, or_false, Prod.mk.injEq] at hk
  rcases hk with ⟨rfl, rfl⟩ | ⟨rfl, rfl⟩ | ⟨rfl, rfl⟩ | ⟨rfl, rfl⟩ <;>
    · simp +decide only [buildPreVersionStrings, hne, hS, hhead, hp, hsne, hdrop,
        if_false, reduceIte]
      simp only [Except.ok.injEq, Prod.mk.injEq]
      refine ⟨?_, ?_⟩ <;> first
        | trivial
        | (apply str_ext;
           simp [data_append, eDash, eDev, eAlpha, eBeta, eRc, eDashDev, eDashAlpha,
             eDashBeta, eDashRc])

/-- C6 (amended): with a prerelease present, the formatter suffix is
`.{timestamp}` when not exact; when exact it is `.` followed by the numeric
value of the second identifier of the extended prerelease list — the
explicit ordinal when one was parsed, and `0` when the second identifier is
the appended timestamp string (single-token prerelease), never empty. -/
theorem claim6_formatter_suffix (components : VersionComponents) (opts : Options)
    (p : PRVersion) (k t : String)
    (hk : (k, t) ∈ [("dev", "dev"), ("alpha", "a"), ("beta", "b"), ("rc", "rc")])
    (hp : p.versionStr = k) :
    (components.isExact = false → ∀ ps, components.semver.pre = p :: ps →
      buildPreVersionStrings
        { components.semver with pre := extendPre components.semver.pre components.timestamp }
        components opts =
        .ok ("-" ++ k ++ ("." ++ intStr components.timestamp) ++
              (if (!opts.omitCommitHash && !opts.isPreRelease) then
                "+" ++ components.shortHash else ""),
             t ++ intStr components.timestamp)) ∧
    (components.isExact = true → ∀ q ps, components.semver.pre = p :: q :: ps →
      buildPreVersionStrings
        { components.semver with pre := extendPre components.semver.pre components.timestamp }
        components opts =
        .ok ("-" ++ k ++ ("." ++ natStr q.versionNum) ++
              (if (!opts.omitCommitHash && !opts.isPreRelease) then
                "+" ++ components.shortHash else ""),
             t ++ natStr q.versionNum)) ∧
    (components.isExact = true → components.semver.pre = [p] →
      buildPreVersionStrings
        { components.semver with pre := extendPre components.semver.pre components.timestamp }
        components opts =
        .ok ("-" ++ k ++ ("." ++ "0") ++
              (if (!opts.omitCommitHash && !opts.isPreRelease) then
                "+" ++ components.shortHash else ""),
             t ++ "0")) := by
  refine ⟨fun hex ps hpre => ?_, fun hex q ps hpre => ?_, fun hex hpre => ?_⟩
  · refine buildPre_kind _ _ _ _ _ _ p hk ?_ ?_ hp ?_
    · dsimp only
      rw [hpre]
      cases ps <;> simp [extendPre]
    · dsimp only
      rw [hpre]
      cases ps <;> rfl
    · simp [hex]
  · refine buildPre_kind _ _ _ _ _ _ p hk ?_ ?_ hp ?_
    · dsimp only
      rw [hpre, extendPre_cons_cons]
      simp
    · dsimp only
      rw [hpre, extendPre_cons_cons]
      rfl
    · dsimp only
      rw [hpre, extendPre_cons_cons]
      simp [hex]
  · refine buildPre_kind _ _ _ _ _ _ p hk ?_ ?_ hp ?_
    · dsimp only
      rw [hpre, extendPre_single]
      simp
    · dsimp only
      rw [hpre, extendPre_single]
      rfl
    · dsimp only
      rw [hpre, extendPre_single]
      simp [hex]
      decide

theorem claim6_formatter_suffix_witness :
    buildPreVersionStrings
        { (⟨⟨1, 2, 3, [⟨"alpha", 0, false⟩], []⟩, false, "abcd1234", 99, true⟩ :
            VersionComponents).semver with
          pre := extendPre [⟨"alpha", 0, false⟩] 99 }
        ⟨⟨1, 2, 3, [⟨"alpha", 0, false⟩], []⟩, false, "abcd1234", 99, true⟩
        ⟨none, "HEAD", true, "", false, none, ""⟩ =
      .ok ("-" ++ "alpha" ++ ("." ++ "0") ++
            (if (!(true : Bool) && !(false : Bool)) then "+" ++ "abcd1234" else ""),
           "a" ++ "0") :=
  ((claim6_formatter_suffix ⟨⟨1, 2, 3, [⟨"alpha", 0, false⟩], []⟩, false, "abcd1234", 99, true⟩
      ⟨none, "HEAD", true, "", false, none, ""⟩ ⟨"alpha", 0, false⟩ "alpha" "a"
      (by decide) rfl).2.2) rfl rfl

/-- C7: a parsing release-prefix override replaces exactly the numeric
triple of the result, leaving the prerelease produced by the bump step, the
dirty flag, the short hash, the timestamp and the exactness flag unchanged —
stated as a frame property between the run without an override and the run
with one, for arbitrary repository state and exactness. -/
theorem claim7_release_override_frame (repo : Repo) (opts : Options) (rp : String)
    (pv : SemVer) (c : VersionComponents)
    (hrp : rp ≠ "") (hparse : parseSemver rp = .ok pv)
    (hbase : getVersionComponents repo { opts with releasePrefix := "" } = .ok c) :
    getVersionComponents repo { opts with releasePrefix := rp } =
      .ok { c with semver := { c.semver with
        major := pv.major, minor := pv.minor, patch := pv.patch } } := by
  simp only [getVersionComponents] at hbase ⊢
  cases hres : repo.resolve opts.commitish with
  | none => simp [hres] at hbase
  | some rev =>
    simp only [hres] at hbase ⊢
    cases hfc : findCommit repo rev with
    | none => simp [hfc] at hbase
    | some commit =>
      simp only [hfc] at hbase ⊢
      cases hdet : determineBaseVersion repo rev opts.isPreRelease opts.tagFilter with
      | error e => simp [hdet] at hbase
      | ok bv =>
        simp only [hdet] at hbase ⊢
        cases hps : parseSemver bv.1 with
        | error e => simp [hps] at hbase
        | ok parsed =>
          simp only [hps] at hbase ⊢
          cases hd : repo.dirty with
          | error e =>
            simp [hd, applyReleaseOverride] at hbase
          | ok dirtyFlag =>
            simp only [applyReleaseOverride, hrp, hparse, if_false, reduceIte, hd,
              if_pos] at hbase ⊢
            rw [Except.ok.injEq] at hbase
            subst hbase
            rfl

theorem claim7_release_override_frame_witness :
    getVersionComponents repoCleanTagged
      ⟨some repoCleanTagged, "HEAD", false, "9.8.7", false, none, ""⟩ =
      .ok ⟨⟨9, 8, 7, [], []⟩, false, "aaaaaaaa", 1700000000, true⟩ :=
  claim7_release_override_frame repoCleanTagged
    ⟨some repoCleanTagged, "HEAD", false, "", false, none, ""⟩ "9.8.7" ⟨9, 8, 7, [], []⟩
    ⟨⟨1, 2, 3, [], []⟩, false, "aaaaaaaa", 1700000000, true⟩
    (by decide) (by decide) (by decide)

theorem natStr_no_lz (n : Nat) : hasLeadingZeroes (natStr n).data = false := by
  unfold hasLeadingZeroes
  cases h : (natStr n).data with
  | nil => rfl
  | cons c tcs =>
    by_cases hc : c = '0'
    · subst hc
      have hn0 : n = 0 := natStr_no_leading_zero n tcs h
      subst hn0
      have h0 : (natStr 0).data = ['0'] := by decide
      rw [h0] at h
      injection h with h1 h2
      subst h2
      rfl
    · have hb : (c == '0') = false := beq_eq_false_iff_ne.mpr hc
      simp [List.headD, hb]

theorem trimPre_append (p s : List Char) : trimPre p (p ++ s) = s := by
  simp [trimPre, List.isPrefixOf_iff_prefix.mpr ⟨s, rfl⟩, List.drop_left]

theorem lastSlash_no_slash {l : List Char} (h : ∀ c ∈ l, c ≠ '/') :
    lastSlashComponent l = l := by
  have hb := breakOnChar_not_mem h
  unfold lastSlashComponent
  cases hl : l.length with
  | zero => rfl
  | succ m => simp [lastSlashAux, hb]

theorem parseUint64_natStr (n : Nat) (hn : n < 18446744073709551616) :
    parseUint64 (natStr n).data = .ok n := by
  simp [parseUint64, natStr_ne_empty n, natStr_digitsVal, hn]

theorem parseVersionNum_natStr (n : Nat) (w : String) (hn : n < 18446744073709551616) :
    parseVersionNum (natStr n).data w = .ok n := by
  have hall : (natStr n).data.all Char.isDigit = true :=
    List.all_eq_true.mpr (natStr_all_digits n)
  simp [parseVersionNum, hall, natStr_no_lz, parseUint64_natStr n hn]

/-- `semver.Parse` on a canonical numeric triple. -/
theorem parseSemver_triple (x y z : Nat)
    (hx : x < 18446744073709551616) (hy : y < 18446744073709551616)
    (hz : z < 18446744073709551616) :
    parseSemver (natStr x ++ "." ++ natStr y ++ "." ++ natStr z) = .ok ⟨x, y, z, [], []⟩ := by
  have e3 : ("." : String).data = ['.'] := by decide
  have hdata : (natStr x ++ "." ++ natStr y ++ "." ++ natStr z).data =
      (natStr x).data ++ '.' :: ((natStr y).data ++ '.' :: (natStr z).data) := by
    simp [data_append, e3]
  have hsplit := splitN3_two_dots (natStr z).data (natStr_not_dot x) (natStr_not_dot y)
  have hne : (natStr x).data ++ '.' :: ((natStr y).data ++ '.' :: (natStr z).data) ≠ [] := by
    obtain ⟨c0, t0, hx0, _, _⟩ := natStr_head x
    rw [hx0]
    simp
  have hbp : breakOnChar '+' (natStr z).data = ((natStr z).data, none) :=
    breakOnChar_not_mem (fun c hc => (digit_char_facts (natStr_all_digits z c hc)).2.2.1)
  have hbm : breakOnChar '-' (natStr z).data = ((natStr z).data, none) :=
    breakOnChar_not_mem (fun c hc => (digit_char_facts (natStr_all_digits z c hc)).2.1)
  simp only [parseSemver, hdata, hne, hsplit, parseVersionNum_natStr x _ hx,
    parseVersionNum_natStr y _ hy, hbp, hbm, parseVersionNum_natStr z _ hz,
    List.mapM_nil, List.all_nil, if_true, reduceIte]
  rfl

/-- C2 (amended): if the resolver's exact-match search returns an exact,
visible tag `vX.Y.Z` and the working tree is clean (no release-prefix
override), the generic output of `Calculate` is exactly `X.Y.Z` — no
prerelease token and no commit-hash suffix — for every value of
`omitCommitHash` (and of `isPreRelease` and `tagFilter`). -/
theorem claim2_exact_tag_output
    (compileRegex : String → Except String (String → Bool))
    (opts : Options) (repo : Repo) (rev : String) (commit : Commit) (ref : TagRef)
    (x y z : Nat)
    (hx : x < 18446744073709551616) (hy : y < 18446744073709551616)
    (hz : z < 18446744073709551616)
    (hrepo : opts.repository = some repo)
    (hcm : opts.commitish ≠ "")
    (hpat : opts.tagPattern = "")
    (hrp : opts.releasePrefix = "")
    (hres : repo.resolve opts.commitish = some rev)
    (hfc : findCommit repo rev = some commit)
    (hexact : isExactTagE repo rev opts.isPreRelease opts.tagFilter = .ok (some ref))
    (hname : ref.name = "refs/tags/v" ++ (natStr x ++ "." ++ natStr y ++ "." ++ natStr z))
    (hclean : repo.dirty = .ok false) :
    Calculate compileRegex opts =
      .ok ⟨natStr x ++ "." ++ natStr y ++ "." ++ natStr z,
           natStr x ++ "." ++ natStr y ++ "." ++ natStr z,
           "v" ++ (natStr x ++ "." ++ natStr y ++ "." ++ natStr z),
           natStr x ++ "." ++ natStr y ++ "." ++ natStr z,
           "v" ++ (natStr x ++ "." ++ natStr y ++ "." ++ natStr z)⟩ := by
  have e3 : ("." : String).data = ['.'] := by decide
  have hch : commit.hash = rev := by
    have := List.find?_some hfc
    simpa using this
  have htriple_chars : ∀ c ∈ (natStr x ++ "." ++ natStr y ++ "." ++ natStr z).data,
      c.isDigit = true ∨ c = '.' := by
    intro c hc
    rw [show (natStr x ++ "." ++ natStr y ++ "." ++ natStr z).data =
        (natStr x).data ++ '.' :: ((natStr y).data ++ '.' :: (natStr z).data) from by
      simp [data_append, e3]] at hc
    rcases List.mem_append.mp hc with h | h
    · exact Or.inl (natStr_all_digits x c h)
    · rcases List.mem_cons.mp h with h | h
      · exact Or.inr h
      · rcases List.mem_append.mp h with h | h
        · exact Or.inl (natStr_all_digits y c h)
        · rcases List.mem_cons.mp h with h | h
          · exact Or.inr h
          · exact Or.inl (natStr_all_digits z c h)
  have hshort : stripModuleTagPrefixes (shortName ref) =
      natStr x ++ "." ++ natStr y ++ "." ++ natStr z := by
    rw [shortName, hname]
    have hd : ("refs/tags/v" ++ (natStr x ++ "." ++ natStr y ++ "." ++ natStr z)).data =
        (chars "refs/tags/") ++
          ('v' :: (natStr x ++ "." ++ natStr y ++ "." ++ natStr z).data) := by
      rw [data_append]
      rw [show ("refs/tags/v" : String).data = (chars "refs/tags/") ++ ['v'] from by decide]
      simp
    rw [hd, trimPre_append]
    rw [stripModuleTagPrefixes]
    have hnoslash : ∀ c ∈ ('v' :: (natStr x ++ "." ++ natStr y ++ "." ++ natStr z).data),
        c ≠ '/' := by
      intro c hc
      rcases List.mem_cons.mp hc with h | h
      · subst h; decide
      · rcases htriple_chars c h with h | h
        · exact (digit_char_facts h).2.2.2.1
        · subst h; decide
    rw [data_ofChars, lastSlash_no_slash hnoslash]
    have hv : chars "v" = ['v'] := by decide
    rw [show ('v' :: (natStr x ++ "." ++ natStr y ++ "." ++ natStr z).data) =
      (chars "v") ++ (natStr x ++ "." ++ natStr y ++ "." ++ natStr z).data from by
        rw [hv]; rfl]
    rw [trimPre_append]
    exact ofChars_data _
  have hdet : determineBaseVersion repo rev opts.isPreRelease opts.tagFilter =
      .ok (natStr x ++ "." ++ natStr y ++ "." ++ natStr z, true) := by
    simp only [determineBaseVersion, hfc, hch, hexact, hshort]
  have hgvc : getVersionComponents repo opts =
      .ok ⟨⟨x, y, z, [], []⟩, false, ofChars (rev.data.take 8), commit.timestamp, true⟩ := by
    simp only [getVersionComponents, hres, hfc, hdet, parseSemver_triple x y z hx hy hz,
      applyBump, applyReleaseOverride, hrp, hclean, Bool.not_true, Bool.false_eq_true,
      if_false, if_pos, reduceIte]
  have happend : ∀ s : String, s ++ "" = s := fun s =>
    str_ext (by rw [data_append, show ("" : String).data = [] from rfl, List.append_nil])
  have hblv : buildLanguageVersions
      ⟨⟨x, y, z, [], []⟩, false, ofChars (rev.data.take 8), commit.timestamp, true⟩ opts =
      .ok ⟨natStr x ++ "." ++ natStr y ++ "." ++ natStr z,
           natStr x ++ "." ++ natStr y ++ "." ++ natStr z,
           "v" ++ (natStr x ++ "." ++ natStr y ++ "." ++ natStr z),
           natStr x ++ "." ++ natStr y ++ "." ++ natStr z,
           "v" ++ (natStr x ++ "." ++ natStr y ++ "." ++ natStr z)⟩ := by
    simp [buildLanguageVersions, buildPreVersionStrings, extendPre, happend]
  simp only [Calculate, hrepo, hcm, if_false, reduceIte, hpat, ne_eq, not_true_eq_false,
    not_false_eq_true, hgvc, hblv]

theorem claim2_exact_tag_output_witness :
    Calculate (fun _ => .error "unused")
      ⟨some repoCleanTagged, "HEAD", true, "", false, none, ""⟩ =
      .ok ⟨natStr 1 ++ "." ++ natStr 2 ++ "." ++ natStr 3,
           natStr 1 ++ "." ++ natStr 2 ++ "." ++ natStr 3,
           "v" ++ (natStr 1 ++ "." ++ natStr 2 ++ "." ++ natStr 3),
           natStr 1 ++ "." ++ natStr 2 ++ "." ++ natStr 3,
           "v" ++ (natStr 1 ++ "." ++ natStr 2 ++ "." ++ natStr 3)⟩ :=
  claim2_exact_tag_output (fun _ => .error "unused")
    ⟨some repoCleanTagged, "HEAD", true, "", false, none, ""⟩ repoCleanTagged
    "aaaaaaaaaaaaaaaaaaaaaaaaaaaaaaaaaaaaaaaa"
    ⟨"aaaaaaaaaaaaaaaaaaaaaaaaaaaaaaaaaaaaaaaa", [], 1700000000⟩
    ⟨"refs/tags/v1.2.3", "aaaaaaaaaaaaaaaaaaaaaaaaaaaaaaaaaaaaaaaa"⟩
    1 2 3 (by decide) (by decide) (by decide) rfl (by decide) rfl rfl (by decide)
    (by decide) (by decide) (by decide) rfl

/-- Staged specification of the ancestry search: materialize the preorder
ancestor list, then return the first commit bearing an exact, visible,
filter-passing tag. -/
def firstExactOfList (repo : Repo) (isPrerelease : Bool)
    (tagFilter : Option (String → Bool)) : List String → Except String (Option TagRef)
  | [] => .ok none
  | h :: rest =>
    match findCommit repo h with
    | none => .error "getting commit object"
    | some c =>
      match isExactTagE repo c.hash isPrerelease tagFilter with
      | .error e => .error e
      | .ok (some ref) => .ok (some ref)
      | .ok none => firstExactOfList repo isPrerelease tagFilter rest

theorem preorderAux_nil (repo : Repo) (seen : List String) :
    preorderAux repo [] seen = .ok [] := by
  rw [preorderAux]

/-- One-step reduction of `preorderAux` with plain `if`/`match`. -/
theorem preorderAux_cons (repo : Repo) (h : String) (rest seen : List String) :
    preorderAux repo (h :: rest) seen =
      if seen.contains h then preorderAux repo rest seen
      else
        match findCommit repo h with
        | none => .error "getting commit object"
        | some c => (preorderAux repo (c.parents ++ rest) (h :: seen)).map (fun l => h :: l) := by
  rw [preorderAux]
  by_cases hs : seen.contains h
  · rw [dif_pos hs, if_pos hs]
  · rw [dif_neg hs, if_neg hs]
    split
    · rename_i heq
      rw [heq]
    · rename_i c heq
      rw [heq]

theorem walkAux_nil (repo : Repo) (isPrerelease : Bool)
    (tagFilter : Option (String → Bool)) (seen : List String) :
    walkAux repo isPrerelease tagFilter [] seen = .ok none := by
  rw [walkAux]

/-- One-step reduction of `walkAux` with plain `if`/`match`. -/
theorem walkAux_cons (repo : Repo) (isPrerelease : Bool)
    (tagFilter : Option (String → Bool)) (h : String) (rest seen : List String) :
    walkAux repo isPrerelease tagFilter (h :: rest) seen =
      if seen.contains h then walkAux repo isPrerelease tagFilter rest seen
      else
        match findCommit repo h with
        | none => .error "getting commit object"
        | some c =>
          match isExactTagE repo c.hash isPrerelease tagFilter with
          | .error e => .error e
          | .ok (some ref) => .ok (some ref)
          | .ok none => walkAux repo isPrerelease tagFilter (c.parents ++ rest) (h :: seen) := by
  rw [walkAux]
  by_cases hs : seen.contains h
  · rw [dif_pos hs, if_pos hs]
  · rw [dif_neg hs, if_neg hs]
    split
    · rename_i heq
      rw [heq]
    · rename_i c heq
      rw [heq]

/-- The fused `mostRecentTag` loop computes exactly "preorder ancestor list,
then first exact tag": traversal and search commute. -/
theorem walkAux_eq_firstExact (repo : Repo) (isPrerelease : Bool)
    (tagFilter : Option (String → Bool)) :
    ∀ wl seen l, preorderAux repo wl seen = .ok l →
      walkAux repo isPrerelease tagFilter wl seen =
        firstExactOfList repo isPrerelease tagFilter l := by
  intro wl seen
  induction wl, seen using preorderAux.induct repo with
  | case1 seen =>
    intro l hl
    rw [preorderAux_nil] at hl
    injection hl with hl
    subst hl
    rw [walkAux_nil]
    rfl
  | case2 h rest seen hseen ih =>
    intro l hl
    rw [preorderAux_cons, if_pos hseen] at hl
    rw [walkAux_cons, if_pos hseen]
    exact ih l hl
  | case3 h rest seen hseen hfind =>
    intro l hl
    rw [preorderAux_cons, if_neg hseen, hfind] at hl
    exact absurd hl (by simp)
  | case4 h rest seen hseen c hfind ih =>
    intro l hl
    rw [preorderAux_cons, if_neg hseen, hfind] at hl
    dsimp only at hl
    cases hrec : preorderAux repo (c.parents ++ rest) (h :: seen) with
    | error e => rw [hrec] at hl; exact absurd hl (by simp [Except.map])
    | ok l2 =>
      rw [hrec] at hl
      simp only [Except.map, Except.ok.injEq] at hl
      subst hl
      rw [walkAux_cons, if_neg hseen, hfind]
      cases hex : isExactTagE repo c.hash isPrerelease tagFilter with
      | error e => simp [firstExactOfList, hfind, hex]
      | ok o =>
        cases o with
        | some ref => simp [firstExactOfList, hfind, hex]
        | none =>
          simp only [firstExactOfList, hfind, hex]
          exact ih l2 hrec

/-- C9: when the resolved commit has no exact tag, `determineBaseVersion` is
exactly "walk the preorder ancestor list (the commit itself first) and
return the first exact, visible, filter-passing tag, with `isExact = false`;
`("0.0.0", false)` when none is reachable"; and in the no-reachable-tag case
the full pipeline produces `0.0.1-alpha.<committer unix timestamp>` (shown
with `omitCommitHash` set and a clean worktree). -/
theorem claim9_resolver_walk
    (compileRegex : String → Except String (String → Bool))
    (opts : Options) (repo : Repo) (rev : String) (commit : Commit) (l : List String)
    (hrepo : opts.repository = some repo) (hcm : opts.commitish ≠ "")
    (hpat : opts.tagPattern = "") (hrp : opts.releasePrefix = "")
    (homit : opts.omitCommitHash = true)
    (hres : repo.resolve opts.commitish = some rev)
    (hfc : findCommit repo rev = some commit)
    (hexact : isExactTagE repo rev opts.isPreRelease opts.tagFilter = .ok none)
    (hpre : preorderAux repo [rev] [] = .ok l) :
    (determineBaseVersion repo rev opts.isPreRelease opts.tagFilter =
      match firstExactOfList repo opts.isPreRelease opts.tagFilter l with
      | .error e => .error ("finding recent tag: " ++ e)
      | .ok (some r) => .ok (stripModuleTagPrefixes (shortName r), false)
      | .ok none => .ok ("0.0.0", false)) ∧
    (firstExactOfList repo opts.isPreRelease opts.tagFilter l = .ok none →
      repo.dirty = .ok false →
      Calculate compileRegex opts =
        .ok ⟨"0.0.1-alpha." ++ intStr commit.timestamp,
             "0.0.1a" ++ intStr commit.timestamp,
             "v0.0.1-alpha." ++ intStr commit.timestamp,
             "0.0.1-alpha." ++ intStr commit.timestamp,
             "v0.0.1-alpha." ++ intStr commit.timestamp⟩) := by
  have hch : commit.hash = rev := by
    have := List.find?_some hfc
    simpa using this
  have hwalk : mostRecentTagE repo rev opts.isPreRelease opts.tagFilter =
      firstExactOfList repo opts.isPreRelease opts.tagFilter l := by
    simp only [mostRecentTagE, hfc, hch]
    exact walkAux_eq_firstExact repo _ _ [rev] [] l hpre
  have hdet : determineBaseVersion repo rev opts.isPreRelease opts.tagFilter =
      match firstExactOfList repo opts.isPreRelease opts.tagFilter l with
      | .error e => .error ("finding recent tag: " ++ e)
      | .ok (some r) => .ok (stripModuleTagPrefixes (shortName r), false)
      | .ok none => .ok ("0.0.0", false) := by
    simp only [determineBaseVersion, hfc, hch, hexact, hwalk]
  refine ⟨hdet, fun hnone hdirty => ?_⟩
  have hdetnone : determineBaseVersion repo rev opts.isPreRelease opts.tagFilter =
      .ok ("0.0.0", false) := by
    rw [hdet, hnone]
  have hparse000 : parseSemver "0.0.0" = .ok ⟨0, 0, 0, [], []⟩ := by decide
  have hbump : applyBump ⟨0, 0, 0, [], []⟩ false = ⟨0, 0, 1, [⟨"alpha", 0, false⟩], []⟩ := by
    decide
  have hgvc : getVersionComponents repo opts =
      .ok ⟨⟨0, 0, 1, [⟨"alpha", 0, false⟩], []⟩, false, ofChars (rev.data.take 8),
        commit.timestamp, false⟩ := by
    simp only [getVersionComponents, hres, hfc, hdetnone, hparse000, hbump,
      applyReleaseOverride, hrp, hdirty, if_pos, reduceIte]
  have hhash : (if (!opts.omitCommitHash && !opts.isPreRelease) then
      "+" ++ (⟨⟨0, 0, 1, [⟨"alpha", 0, false⟩], []⟩, false, ofChars (rev.data.take 8),
        commit.timestamp, false⟩ : VersionComponents).shortHash else "") = "" := by
    simp [homit]
  have hbp := buildPre_kind
    ⟨0, 0, 1, extendPre [⟨"alpha", 0, false⟩] commit.timestamp, []⟩
    ⟨⟨0, 0, 1, [⟨"alpha", 0, false⟩], []⟩, false, ofChars (rev.data.take 8),
      commit.timestamp, false⟩
    opts "alpha" "a" (intStr commit.timestamp) ⟨"alpha", 0, false⟩
    (by decide) (by simp [extendPre]) rfl rfl (by simp [extendPre])
  rw [hhash] at hbp
  have hblv : buildLanguageVersions
      ⟨⟨0, 0, 1, [⟨"alpha", 0, false⟩], []⟩, false, ofChars (rev.data.take 8),
        commit.timestamp, false⟩ opts =
      .ok ⟨"0.0.1-alpha." ++ intStr commit.timestamp,
           "0.0.1a" ++ intStr commit.timestamp,
           "v0.0.1-alpha." ++ intStr commit.timestamp,
           "0.0.1-alpha." ++ intStr commit.timestamp,
           "v0.0.1-alpha." ++ intStr commit.timestamp⟩ := by
    simp only [buildLanguageVersions, hbp]
    simp only [Except.ok.injEq, LanguageVersions.mk.injEq]
    have eDot : ("." : String).data = ['.'] := by decide
    have eDashAlpha : ("-alpha" : String).data = ['-', 'a', 'l', 'p', 'h', 'a'] := by decide
    have eA : ("a" : String).data = ['a'] := by decide
    have eDash : ("-" : String).data = ['-'] := by decide
    have eAlpha : ("alpha" : String).data = ['a', 'l', 'p', 'h', 'a'] := by decide
    have eV : ("v" : String).data = ['v'] := by decide
    have e0 : (natStr 0).data = ['0'] := by decide
    have e1 : (natStr 1).data = ['1'] := by decide
    have g1 : ("0.0.1-alpha." : String).data =
      ['0', '.', '0', '.', '1', '-', 'a', 'l', 'p', 'h', 'a', '.'] := by decide
    have g2 : ("0.0.1a" : String).data = ['0', '.', '0', '.', '1', 'a'] := by decide
    have g3 : ("v0.0.1-alpha." : String).data =
      ['v', '0', '.', '0', '.', '1', '-', 'a', 'l', 'p', 'h', 'a', '.'] := by decide
    have ge : ("" : String).data = [] := rfl
    refine ⟨?_, ?_, ?_, ?_, ?_⟩ <;> first
      | trivial
      | (apply str_ext;
         simp [data_append, data_ofChars, eDot, eDashAlpha, eA, eDash, eAlpha, eV,
           e0, e1, g1, g2, g3, ge])
  simp only [Calculate, hrepo, hcm, if_false, reduceIte, hpat, ne_eq, not_true_eq_false,
    not_false_eq_true, hgvc, hblv]

/-- Two untagged commits, child `b…` with parent `a…`. -/
def repoUntagged : Repo :=
  { commits := [⟨"bbbbbbbbbbbbbbbbbbbbbbbbbbbbbbbbbbbbbbbb",
      ["aaaaaaaaaaaaaaaaaaaaaaaaaaaaaaaaaaaaaaaa"], 1700000100⟩,
      ⟨"aaaaaaaaaaaaaaaaaaaaaaaaaaaaaaaaaaaaaaaa", [], 1700000000⟩]
    tags := .ok []
    annotated := fun _ => none
    resolve := fun s =>
      if s = "HEAD" then some "bbbbbbbbbbbbbbbbbbbbbbbbbbbbbbbbbbbbbbbb" else none
    dirty := .ok false }

theorem claim9_resolver_walk_witness :
    Calculate (fun _ => .error "unused")
      ⟨some repoUntagged, "HEAD", true, "", false, none, ""⟩ =
      .ok ⟨"0.0.1-alpha." ++ intStr 1700000100,
           "0.0.1a" ++ intStr 1700000100,
           "v0.0.1-alpha." ++ intStr 1700000100,
           "0.0.1-alpha." ++ intStr 1700000100,
           "v0.0.1-alpha." ++ intStr 1700000100⟩ := by
  have hpre : preorderAux repoUntagged ["bbbbbbbbbbbbbbbbbbbbbbbbbbbbbbbbbbbbbbbb"] [] =
      .ok ["bbbbbbbbbbbbbbbbbbbbbbbbbbbbbbbbbbbbbbbb",
        "aaaaaaaaaaaaaaaaaaaaaaaaaaaaaaaaaaaaaaaa"] := by
    simp +decide [preorderAux_cons, preorderAux_nil, findCommit, repoUntagged, List.find?]
  exact (claim9_resolver_walk (fun _ => .error "unused")
    ⟨some repoUntagged, "HEAD", true, "", false, none, ""⟩ repoUntagged
    "bbbbbbbbbbbbbbbbbbbbbbbbbbbbbbbbbbbbbbbb"
    ⟨"bbbbbbbbbbbbbbbbbbbbbbbbbbbbbbbbbbbbbbbb",
      ["aaaaaaaaaaaaaaaaaaaaaaaaaaaaaaaaaaaaaaaa"], 1700000100⟩
    ["bbbbbbbbbbbbbbbbbbbbbbbbbbbbbbbbbbbbbbbb",
      "aaaaaaaaaaaaaaaaaaaaaaaaaaaaaaaaaaaaaaaa"]
    rfl (by decide) rfl rfl rfl (by decide) (by decide) (by decide) hpre).2
    (by decide) rfl

end Vers
